import Mathlib

/-!
# Verification of the Go rules / move-evaluation engine

Shallow embedding of the rules core of the repository (services/goLogic &
opening data, `src/unnamed/part_000` and `src/unnamed/part_001`):
`getGroupAndLiberties`, `executeMove`, `areBoardsEqual`, `analyzeTerritory`,
`getStrategicValue`, the opening books with their 8 symmetry transforms, and
`getAIThinkingMove`.

Modelling conventions (JS → Lean):
* Coordinates are JS numbers used as integers; they are modelled as `Int`
  (neighbour arithmetic `row - 1` can go negative before the bounds check).
* The JS board is a `Map<string, Player>` keyed by the string `"row,col"`;
  `posKey` is injective on positions, so keys are modelled as `Pos` directly
  and the map as an association list `Board := List (Pos × Player)` with
  `Map.get/set/delete/size` modelled by `bget/bset/bdel/length`.
* JS `Set` objects (the BFS stone/liberty/visited sets) are modelled as
  `Finset`; only membership and cardinality of these sets are observable in
  the verified statements.
* The unbounded `while (queue.length > 0)` BFS loop is modelled with a fuel
  parameter `4*size*size+1`, which is proved sufficient for the loop to
  drain its queue.
* `Map.prototype.forEach` deletion of a whole captured group is modelled by
  filtering the group's stones out of the association list (same effect on
  an association list as the per-key deletions).
* The float literal `0.8` in `moveCount < size*size*0.8` is modelled by the
  exact rational comparison `5 * moveCount < 4 * size * size`; the two agree
  on all integer inputs in the supported size range.
* `Math.floor(Math.random() * n)` (an arbitrary index `< n`) is modelled by
  an explicit `rand : Nat` input reduced modulo `n`.
-/

/-- Stone colors; the source enum `Player { Black, White }`. -/
inductive Player where
  | Black : Player
  | White : Player
deriving DecidableEq, Repr

/-- Board position; the source `interface Position { row; col }`. -/
structure Pos where
  row : Int
  col : Int
deriving DecidableEq, Repr

/-- The source `BoardState = Map<string, Player>` keyed by `posKey`,
modelled as an association list keyed by `Pos`. -/
abbrev Board := List (Pos × Player)

/-- `player === Player.Black ? Player.White : Player.Black`. -/
def Player.opp : Player → Player
  | Player.Black => Player.White
  | Player.White => Player.Black

/-- `Map.get`: the value stored at the first (only) entry with this key. -/
def bget : Board → Pos → Option Player
  | [], _ => none
  | (q, c) :: rest, p => if q = p then some c else bget rest p

/-- `Map.has`. -/
def bhas (b : Board) (p : Pos) : Bool := (bget b p).isSome

/-- `Map.set`: replace the entry in place if the key is present, else append
a new entry (JS `Map` insertion-order semantics). -/
def bset : Board → Pos → Player → Board
  | [], p, c => [(p, c)]
  | (q, d) :: rest, p, c => if q = p then (q, c) :: rest else (q, d) :: bset rest p c

/-- Deleting every stone of a captured group
(`g.stones.forEach(s => nextBoard.delete(posKey(s)))`). -/
def bdelAll (b : Board) (dead : Finset Pos) : Board :=
  b.filter (fun e => decide (e.1 ∉ dead))

/-- The four neighbour offsets in source order:
up `(-1,0)`, down `(1,0)`, left `(0,-1)`, right `(0,1)`. -/
def neighborsOf (p : Pos) : List Pos :=
  [⟨p.row - 1, p.col⟩, ⟨p.row + 1, p.col⟩, ⟨p.row, p.col - 1⟩, ⟨p.row, p.col + 1⟩]

/-- The bounds test `r >= 0 && r < size && c >= 0 && c < size`. -/
def inB (size : Nat) (p : Pos) : Prop :=
  0 ≤ p.row ∧ p.row < (size : Int) ∧ 0 ≤ p.col ∧ p.col < (size : Int)

instance (size : Nat) (p : Pos) : Decidable (inB size p) := by
  unfold inB; infer_instance

/-- `areBoardsEqual` (src/unnamed/part_000 lines 5-11): entry counts equal
(`b1.size !== b2.size`, where `.size` is the `Map` entry count) and every
entry of `b1` present with the same value in `b2`. -/
def areBoardsEqual (b1 b2 : Board) : Bool :=
  b1.length == b2.length && b1.all (fun e => bget b2 e.1 == some e.2)

/-- Result of `getGroupAndLiberties`: `GroupInfo { stones, liberties, player }`.
The source returns the sets as arrays (`Array.from`); the claims only observe
the underlying sets, kept here as `Finset`. -/
structure GroupInfo where
  stones : Finset Pos
  liberties : Finset Pos
  player : Player
deriving DecidableEq

/-- One step of the BFS inner `for (const next of neighbors)` loop of
`getGroupAndLiberties`: classify one neighbour of the dequeued stone.
State is `(stones, liberties, queue)`. -/
def visitNbr (board : Board) (size : Nat) (player : Player)
    (st : Finset Pos × Finset Pos × List Pos) (next : Pos) :
    Finset Pos × Finset Pos × List Pos :=
  if inB size next then
    match bget board next with
    | some c =>
        if c = player then
          if next ∈ st.1 then st
          else (insert next st.1, st.2.1, st.2.2 ++ [next])
        else st
    | none => (st.1, insert next st.2.1, st.2.2)
  else st

/-- The BFS `while (queue.length > 0)` loop of `getGroupAndLiberties`,
with an explicit fuel parameter (proved sufficient below). -/
def bfsLoop (board : Board) (size : Nat) (player : Player) :
    Nat → List Pos → Finset Pos → Finset Pos → Finset Pos × Finset Pos
  | 0, _, stones, libs => (stones, libs)
  | _ + 1, [], stones, libs => (stones, libs)
  | fuel + 1, curr :: rest, stones, libs =>
      let st := (neighborsOf curr).foldl (visitNbr board size player) (stones, libs, rest)
      bfsLoop board size player fuel st.2.2 st.1 st.2.1

/-- `getGroupAndLiberties` (src/unnamed/part_000 lines 13-57): BFS flood fill
from `startPos` collecting the same-colored group and its liberties; an empty
start point yields an empty group with `player` defaulted to Black. -/
def getGroupAndLiberties (board : Board) (size : Nat) (startPos : Pos) : GroupInfo :=
  match bget board startPos with
  | none => ⟨∅, ∅, Player.Black⟩
  | some player =>
      let r := bfsLoop board size player (4 * size * size + 1) [startPos] {startPos} ∅
      ⟨r.1, r.2, player⟩

/-- Result record of `executeMove`:
`{ newBoard, captured, valid, capturedStones }`. -/
structure MoveResult where
  newBoard : Board
  captured : Bool
  valid : Bool
  capturedStones : Nat
deriving DecidableEq, Repr

/-- One step of the capture scan (`neighbors.forEach` in `executeMove`,
src/unnamed/part_000 lines 174-186): if the neighbour holds an opponent stone
whose group has no liberties, delete that group and count its stones. -/
def scanNbr (size : Nat) (opponent : Player)
    (st : Board × Nat) (n : Pos) : Board × Nat :=
  if inB size n then
    match bget st.1 n with
    | some c =>
        if c = opponent then
          let g := getGroupAndLiberties st.1 size n
          if g.liberties = ∅ then (bdelAll st.1 g.stones, st.2 + g.stones.card)
          else st
        else st
    | none => st
  else st

/-- Lines 167-186 of `executeMove`: tentative placement
(`nextBoard.set(key, player)`) followed by the capture scan over the four
neighbours; returns the tentative board and `totalCaptured`. -/
def scanResult (currentBoard : Board) (size : Nat) (pos : Pos) (player : Player) :
    Board × Nat :=
  (neighborsOf pos).foldl (scanNbr size player.opp) (bset currentBoard pos player, 0)

/-- `executeMove` (src/unnamed/part_000 lines 157-199): occupancy check,
tentative placement, opponent-capture scan, suicide check, simple-ko check. -/
def executeMove (currentBoard : Board) (size : Nat) (pos : Pos) (player : Player)
    (previousBoard : Option Board := none) : MoveResult :=
  if bhas currentBoard pos then ⟨currentBoard, false, false, 0⟩
  else
    let scanned := scanResult currentBoard size pos player
    let nextBoard := scanned.1
    let totalCaptured := scanned.2
    let myGroup := getGroupAndLiberties nextBoard size pos
    if myGroup.liberties = ∅ then ⟨currentBoard, false, false, 0⟩
    else
      match previousBoard with
      | some prev =>
          if areBoardsEqual nextBoard prev then ⟨currentBoard, false, false, 0⟩
          else ⟨nextBoard, decide (0 < totalCaptured), true, totalCaptured⟩
      | none => ⟨nextBoard, decide (0 < totalCaptured), true, totalCaptured⟩

/-- `getStrategicValue` (src/unnamed/part_000 lines 136-155); the float
threshold `size*size*0.8` is the exact rational test `5*moveCount < 4*size²`. -/
def getStrategicValue (r c : Int) (size : Nat) (moveCount : Nat) : Int :=
  let dr := min r ((size : Int) - 1 - r)
  let dc := min c ((size : Int) - 1 - c)
  if moveCount < 20 ∧ dr = 3 ∧ dc = 3 then 8000
  else if moveCount < 20 ∧ ((dr = 2 ∧ dc = 3) ∨ (dr = 3 ∧ dc = 2)) then 7500
  else if dr = 2 ∨ dc = 2 then 3000
  else if dr = 3 ∨ dc = 3 then 2500
  else if dr = 0 ∨ dc = 0 then
    (if 5 * moveCount < 4 * size * size then -5000 else 500)
  else 200

/-! ## Basic lemmas about the board map -/

/-- Keys of a JS `Map` are unique; well-formed boards satisfy this. -/
def KeysNodup (b : Board) : Prop := (b.map Prod.fst).Nodup

instance (b : Board) : Decidable (KeysNodup b) := by
  unfold KeysNodup; exact List.nodupDecidable _


theorem bget_bset (b : Board) (p : Pos) (c : Player) (q : Pos) :
    bget (bset b p c) q = if p = q then some c else bget b q := by
  induction b with
  | nil =>
      by_cases h : p = q <;> simp [bset, bget, h]
  | cons e rest ih =>
      obtain ⟨k, d⟩ := e
      by_cases hk : k = p
      · subst hk
        by_cases hq : k = q <;> simp [bset, bget, hq]
      · have h1 : bset ((k, d) :: rest) p c = (k, d) :: bset rest p c := by
          simp [bset, hk]
        rw [h1]
        show (if k = q then some d else bget (bset rest p c) q) = _
        rw [ih]
        show _ = if p = q then some c else (if k = q then some d else bget rest q)
        split_ifs with h2 h3 <;> simp_all

theorem bget_bdelAll (b : Board) (dead : Finset Pos) (q : Pos) :
    bget (bdelAll b dead) q = if q ∈ dead then none else bget b q := by
  induction b with
  | nil => by_cases h : q ∈ dead <;> simp [bdelAll, bget, h]
  | cons e rest ih =>
      obtain ⟨k, d⟩ := e
      by_cases hkd : k ∈ dead
      · have h1 : bdelAll ((k, d) :: rest) dead = bdelAll rest dead := by
          simp [bdelAll, List.filter_cons, hkd]
        rw [h1, ih]
        by_cases hq : q ∈ dead
        · simp [hq]
        · have hkq : ¬ k = q := fun h => hq (h ▸ hkd)
          simp [hq, bget, hkq]
      · have h1 : bdelAll ((k, d) :: rest) dead = (k, d) :: bdelAll rest dead := by
          simp [bdelAll, List.filter_cons, hkd]
        rw [h1]
        show (if k = q then some d else bget (bdelAll rest dead) q) = _
        rw [ih]
        by_cases hkq : k = q
        · subst hkq
          simp [hkd, bget]
        · simp [hkq, bget]

theorem bhas_eq_true_iff (b : Board) (p : Pos) :
    bhas b p = true ↔ ∃ c, bget b p = some c := by
  unfold bhas
  cases h : bget b p <;> simp

theorem bhas_eq_false_iff (b : Board) (p : Pos) :
    bhas b p = false ↔ bget b p = none := by
  unfold bhas
  cases h : bget b p <;> simp

/-- A key is among the entries iff `bget` finds it (no uniqueness needed). -/
theorem mem_keys_iff_bget_isSome (b : Board) (p : Pos) :
    p ∈ b.map Prod.fst ↔ (bget b p).isSome := by
  induction b with
  | nil => simp [bget]
  | cons e rest ih =>
      obtain ⟨k, d⟩ := e
      by_cases hq : k = p
      · subst hq; simp [bget]
      · have : ¬ p = k := fun h => hq h.symm
        simp [bget, hq, this, ih]

/-- With unique keys, `bget` returning a value is the same as entry membership. -/
theorem bget_eq_some_iff (b : Board) (h : KeysNodup b) (p : Pos) (c : Player) :
    bget b p = some c ↔ (p, c) ∈ b := by
  induction b with
  | nil => simp [bget]
  | cons e rest ih =>
      obtain ⟨k, d⟩ := e
      have hknot : k ∉ rest.map Prod.fst := (List.nodup_cons.mp h).1
      have hrest : KeysNodup rest := (List.nodup_cons.mp h).2
      by_cases hq : k = p
      · subst hq
        simp only [bget, if_pos rfl, List.mem_cons]
        constructor
        · intro h2
          have hdc : d = c := Option.some.inj h2
          left
          rw [hdc]
        · intro h2
          rcases h2 with h2 | h2
          · have hcd : c = d := (Prod.ext_iff.mp h2).2
            simp [hcd]
          · exact absurd (List.mem_map.mpr ⟨(k, c), h2, rfl⟩) hknot
      · have hpk : ¬ (p, c) = (k, d) := by
          intro hh
          exact hq ((Prod.ext_iff.mp hh).1).symm
        have h2 : bget ((k, d) :: rest) p = bget rest p := by
          simp [bget, hq]
        rw [h2, ih hrest, List.mem_cons]
        constructor
        · intro hm; exact Or.inr hm
        · intro hm
          rcases hm with hm | hm
          · exact absurd hm hpk
          · exact hm

/-! ## Adjacency and connectivity -/

/-- `q` is one of the four grid neighbours of `p`. -/
def adjacent (p q : Pos) : Prop := q ∈ neighborsOf p

instance (p q : Pos) : Decidable (adjacent p q) := by
  unfold adjacent neighborsOf; infer_instance

theorem adjacent_symm {p q : Pos} (h : adjacent p q) : adjacent q p := by
  obtain ⟨pr, pc⟩ := p
  obtain ⟨qr, qc⟩ := q
  simp only [adjacent, neighborsOf, List.mem_cons, List.mem_singleton, Pos.mk.injEq,
    List.not_mem_nil, or_false] at h ⊢
  rcases h with h | h | h | h <;> omega

/-- Single move along the board between same-colored stones: the step
relation underlying group connectivity. -/
def Step (b : Board) (c : Player) (size : Nat) (p q : Pos) : Prop :=
  adjacent p q ∧ inB size q ∧ bget b q = some c

/-- `q` is in the 4-connected group of same-colored stones grown from `p`. -/
def Reaches (b : Board) (c : Player) (size : Nat) (p q : Pos) : Prop :=
  Relation.ReflTransGen (Step b c size) p q

/-- Every point reached from a stone is a stone of the same color (or the
start itself). -/
theorem reaches_cases {b : Board} {c : Player} {size : Nat} {p q : Pos}
    (h : Reaches b c size p q) :
    q = p ∨ (inB size q ∧ bget b q = some c) := by
  induction h with
  | refl => exact Or.inl rfl
  | tail _ hstep _ => exact Or.inr ⟨hstep.2.1, hstep.2.2⟩

/-- Reachability only inspects the board through stones of color `c`; two
boards with the same `c`-stones have the same reachability. -/
theorem reaches_congr {b b2 : Board} {c : Player} {size : Nat}
    (hsame : ∀ x, bget b x = some c ↔ bget b2 x = some c) {p q : Pos}
    (h : Reaches b c size p q) : Reaches b2 c size p q := by
  induction h with
  | refl => exact Relation.ReflTransGen.refl
  | tail _ hstep ih =>
      exact Relation.ReflTransGen.tail ih ⟨hstep.1, hstep.2.1, (hsame _).mp hstep.2.2⟩

/-- Restriction: if a (smaller) board agrees with `b` on everything the
group of `p` reaches, reachability from `p` transfers down to it. -/
theorem reaches_restrict {b b2 : Board} {c : Player} {size : Nat} {p : Pos}
    (hagree : ∀ x, Reaches b c size p x → bget b2 x = bget b x) {q : Pos}
    (h : Reaches b c size p q) : Reaches b2 c size p q := by
  induction h with
  | refl => exact Relation.ReflTransGen.refl
  | tail hr hstep ih =>
      refine Relation.ReflTransGen.tail ih ⟨hstep.1, hstep.2.1, ?_⟩
      rw [hagree _ (Relation.ReflTransGen.tail hr hstep)]
      exact hstep.2.2

/-- Reachability is monotone: adding stones elsewhere cannot break it. -/
theorem reaches_mono {b b2 : Board} {c : Player} {size : Nat}
    (hsub : ∀ x, bget b x = some c → bget b2 x = some c) {p q : Pos}
    (h : Reaches b c size p q) : Reaches b2 c size p q := by
  induction h with
  | refl => exact Relation.ReflTransGen.refl
  | tail _ hstep ih =>
      exact Relation.ReflTransGen.tail ih ⟨hstep.1, hstep.2.1, hsub _ hstep.2.2⟩

/-- On stones, reachability is symmetric. -/
theorem reaches_symm {b : Board} {c : Player} {size : Nat} {p q : Pos}
    (hin : inB size p) (hcol : bget b p = some c)
    (h : Reaches b c size p q) : Reaches b c size q p := by
  induction h with
  | refl => exact Relation.ReflTransGen.refl
  | tail hr hstep ih =>
      refine Relation.ReflTransGen.head ?_ ih
      rcases reaches_cases hr with rfl | ⟨hin2, hcol2⟩
      · exact ⟨adjacent_symm hstep.1, hin, hcol⟩
      · exact ⟨adjacent_symm hstep.1, hin2, hcol2⟩

theorem reaches_trans {b : Board} {c : Player} {size : Nat} {p q r : Pos}
    (h1 : Reaches b c size p q) (h2 : Reaches b c size q r) :
    Reaches b c size p r :=
  Relation.ReflTransGen.trans h1 h2

/-- The in-bounds positions as a finite set. -/
def inBFinset (size : Nat) : Finset Pos :=
  (Finset.range size ×ˢ Finset.range size).image fun rc => ⟨(rc.1 : Int), (rc.2 : Int)⟩

theorem mem_inBFinset {size : Nat} {p : Pos} : p ∈ inBFinset size ↔ inB size p := by
  obtain ⟨pr, pc⟩ := p
  unfold inBFinset inB
  simp only [Finset.mem_image, Finset.mem_product, Finset.mem_range, Prod.exists, Pos.mk.injEq]
  constructor
  · rintro ⟨r, c, ⟨hr, hc⟩, h1, h2⟩
    omega
  · rintro ⟨h1, h2, h3, h4⟩
    exact ⟨pr.toNat, pc.toNat, ⟨by omega, by omega⟩, by omega, by omega⟩

theorem card_inBFinset (size : Nat) : (inBFinset size).card = size * size := by
  have hinj : Function.Injective (fun rc : Nat × Nat => (⟨(rc.1 : Int), (rc.2 : Int)⟩ : Pos)) := by
    rintro ⟨a1, a2⟩ ⟨b1, b2⟩ hab
    simp only [Pos.mk.injEq] at hab
    simp only [Prod.mk.injEq]
    omega
  unfold inBFinset
  rw [Finset.card_image_of_injective _ hinj, Finset.card_product]
  simp

/-! ## BFS correctness for getGroupAndLiberties -/

/-- The neighbour classification that adds a liberty. -/
def libCond (board : Board) (size : Nat) (x : Pos) : Bool :=
  decide (inB size x) && (bget board x == none)

theorem visitNbr_not_inB {board : Board} {size : Nat} {player : Player}
    {st : Finset Pos × Finset Pos × List Pos} {x : Pos} (h : ¬ inB size x) :
    visitNbr board size player st x = st := by
  simp [visitNbr, h]

theorem visitNbr_stone_seen {board : Board} {size : Nat} {player : Player}
    {st : Finset Pos × Finset Pos × List Pos} {x : Pos} (h : inB size x)
    (hc : bget board x = some player) (hm : x ∈ st.1) :
    visitNbr board size player st x = st := by
  simp [visitNbr, h, hc, hm]

theorem visitNbr_stone_new {board : Board} {size : Nat} {player : Player}
    {st : Finset Pos × Finset Pos × List Pos} {x : Pos} (h : inB size x)
    (hc : bget board x = some player) (hm : x ∉ st.1) :
    visitNbr board size player st x = (insert x st.1, st.2.1, st.2.2 ++ [x]) := by
  simp [visitNbr, h, hc, hm]

theorem visitNbr_other {board : Board} {size : Nat} {player : Player}
    {st : Finset Pos × Finset Pos × List Pos} {x : Pos} {c : Player} (h : inB size x)
    (hc : bget board x = some c) (hcp : ¬ c = player) :
    visitNbr board size player st x = st := by
  simp [visitNbr, h, hc, hcp]

theorem visitNbr_empty {board : Board} {size : Nat} {player : Player}
    {st : Finset Pos × Finset Pos × List Pos} {x : Pos} (h : inB size x)
    (hc : bget board x = none) :
    visitNbr board size player st x = (st.1, insert x st.2.1, st.2.2) := by
  simp [visitNbr, h, hc]

/-- Full effect of classifying a list of neighbours: newly discovered stones
are appended to the queue and added to the stone set; liberties collect the
empty in-bounds neighbours. -/
theorem foldl_visitNbr_spec (board : Board) (size : Nat) (player : Player) :
    ∀ (ns : List Pos) (stones libs : Finset Pos) (queue : List Pos),
    ∃ news : List Pos,
      ns.foldl (visitNbr board size player) (stones, libs, queue) =
        (stones ∪ news.toFinset,
         libs ∪ (ns.filter (libCond board size)).toFinset,
         queue ++ news) ∧
      news.Nodup ∧
      (∀ p ∈ news, p ∉ stones ∧ p ∈ ns ∧ inB size p ∧ bget board p = some player) ∧
      (∀ p ∈ ns, inB size p → bget board p = some player → p ∈ stones ∨ p ∈ news) := by
  intro ns
  induction ns with
  | nil =>
      intro stones libs queue
      exact ⟨[], by simp, by simp, by simp, by simp⟩
  | cons x tail ih =>
      intro stones libs queue
      by_cases hin : inB size x
      · cases hc : bget board x with
        | none =>
            obtain ⟨news, heq, hnd, hprop, hcomp⟩ := ih stones (insert x libs) queue
            refine ⟨news, ?_, hnd, ?_, ?_⟩
            · rw [List.foldl_cons, visitNbr_empty hin hc]
              rw [heq]
              have hfil : (x :: tail).filter (libCond board size) =
                  x :: tail.filter (libCond board size) := by
                simp [List.filter_cons, libCond, hin, hc]
              rw [hfil]
              have : insert x libs ∪ (tail.filter (libCond board size)).toFinset =
                  libs ∪ (x :: tail.filter (libCond board size)).toFinset := by
                ext y
                simp only [Finset.mem_union, Finset.mem_insert, List.mem_toFinset,
                  List.mem_cons]
                tauto
              rw [this]
            · intro p hp
              obtain ⟨h1, h2, h3, h4⟩ := hprop p hp
              exact ⟨h1, List.mem_cons_of_mem _ h2, h3, h4⟩
            · intro p hp hinp hcp
              rcases List.mem_cons.mp hp with rfl | hp2
              · rw [hc] at hcp; exact absurd hcp (by simp)
              · exact hcomp p hp2 hinp hcp
        | some c =>
            by_cases hcp : c = player
            · subst hcp
              by_cases hm : x ∈ stones
              · obtain ⟨news, heq, hnd, hprop, hcomp⟩ := ih stones libs queue
                refine ⟨news, ?_, hnd, ?_, ?_⟩
                · rw [List.foldl_cons, visitNbr_stone_seen hin hc hm, heq]
                  have hfil : (x :: tail).filter (libCond board size) =
                      tail.filter (libCond board size) := by
                    simp [List.filter_cons, libCond, hc]
                  rw [hfil]
                · intro p hp
                  obtain ⟨h1, h2, h3, h4⟩ := hprop p hp
                  exact ⟨h1, List.mem_cons_of_mem _ h2, h3, h4⟩
                · intro p hp hinp hcp2
                  rcases List.mem_cons.mp hp with rfl | hp2
                  · exact Or.inl hm
                  · exact hcomp p hp2 hinp hcp2
              · obtain ⟨news, heq, hnd, hprop, hcomp⟩ :=
                  ih (insert x stones) libs (queue ++ [x])
                refine ⟨x :: news, ?_, ?_, ?_, ?_⟩
                · rw [List.foldl_cons, visitNbr_stone_new hin hc hm, heq]
                  have hfil : (x :: tail).filter (libCond board size) =
                      tail.filter (libCond board size) := by
                    simp [List.filter_cons, libCond, hc]
                  rw [hfil]
                  have h1 : stones ∪ (x :: news).toFinset =
                      insert x stones ∪ news.toFinset := by
                    ext y
                    simp only [Finset.mem_union, List.mem_toFinset, List.mem_cons,
                      Finset.mem_insert]
                    tauto
                  have h2 : queue ++ x :: news = (queue ++ [x]) ++ news := by
                    simp
                  rw [h1, h2]
                · refine List.nodup_cons.mpr ⟨?_, hnd⟩
                  intro hx
                  exact (hprop x hx).1 (Finset.mem_insert_self x stones)
                · intro p hp
                  rcases List.mem_cons.mp hp with rfl | hp2
                  · exact ⟨hm, List.mem_cons_self p tail, hin, hc⟩
                  · obtain ⟨h1, h2, h3, h4⟩ := hprop p hp2
                    exact ⟨fun hmem => h1 (Finset.mem_insert_of_mem hmem),
                      List.mem_cons_of_mem _ h2, h3, h4⟩
                · intro p hp hinp hcp2
                  rcases List.mem_cons.mp hp with rfl | hp2
                  · exact Or.inr (List.mem_cons_self p news)
                  · rcases hcomp p hp2 hinp hcp2 with hmem | hmem
                    · rcases Finset.mem_insert.mp hmem with rfl | hmem2
                      · exact Or.inr (List.mem_cons_self p news)
                      · exact Or.inl hmem2
                    · exact Or.inr (List.mem_cons_of_mem _ hmem)
            · obtain ⟨news, heq, hnd, hprop, hcomp⟩ := ih stones libs queue
              refine ⟨news, ?_, hnd, ?_, ?_⟩
              · rw [List.foldl_cons, visitNbr_other hin hc hcp, heq]
                have hfil : (x :: tail).filter (libCond board size) =
                    tail.filter (libCond board size) := by
                  simp [List.filter_cons, libCond, hc]
                rw [hfil]
              · intro p hp
                obtain ⟨h1, h2, h3, h4⟩ := hprop p hp
                exact ⟨h1, List.mem_cons_of_mem _ h2, h3, h4⟩
              · intro p hp hinp hcp2
                rcases List.mem_cons.mp hp with rfl | hp2
                · rw [hc] at hcp2
                  exact absurd (Option.some.inj hcp2) hcp
                · exact hcomp p hp2 hinp hcp2
      · obtain ⟨news, heq, hnd, hprop, hcomp⟩ := ih stones libs queue
        refine ⟨news, ?_, hnd, ?_, ?_⟩
        · rw [List.foldl_cons, visitNbr_not_inB hin, heq]
          have hfil : (x :: tail).filter (libCond board size) =
              tail.filter (libCond board size) := by
            simp [List.filter_cons, libCond, hin]
          rw [hfil]
        · intro p hp
          obtain ⟨h1, h2, h3, h4⟩ := hprop p hp
          exact ⟨h1, List.mem_cons_of_mem _ h2, h3, h4⟩
        · intro p hp hinp hcp
          rcases List.mem_cons.mp hp with rfl | hp2
          · exact absurd hinp hin
          · exact hcomp p hp2 hinp hcp

/-- Invariant of the BFS loop of `getGroupAndLiberties`. -/
structure BfsInv (board : Board) (size : Nat) (player : Player) (start : Pos)
    (queue : List Pos) (stones libs : Finset Pos) : Prop where
  start_mem : start ∈ stones
  stones_ok : ∀ p ∈ stones,
    inB size p ∧ bget board p = some player ∧ Reaches board player size start p
  queue_sub : ∀ p ∈ queue, p ∈ stones
  queue_nodup : queue.Nodup
  closed : ∀ p ∈ stones, p ∉ queue →
    ∀ q ∈ neighborsOf p, inB size q → bget board q = some player → q ∈ stones
  libs_sound : ∀ x ∈ libs,
    inB size x ∧ bget board x = none ∧ ∃ p, p ∈ stones ∧ p ∉ queue ∧ x ∈ neighborsOf p
  libs_complete : ∀ p ∈ stones, p ∉ queue →
    ∀ x ∈ neighborsOf p, inB size x → bget board x = none → x ∈ libs

/-- Running the BFS loop with enough fuel preserves the invariant and drains
the queue. -/
theorem bfsLoop_post (board : Board) (size : Nat) (player : Player) (start : Pos) :
    ∀ (fuel : Nat) (queue : List Pos) (stones libs : Finset Pos),
    BfsInv board size player start queue stones libs →
    4 * (size * size - stones.card) + queue.length ≤ fuel →
    BfsInv board size player start []
      (bfsLoop board size player fuel queue stones libs).1
      (bfsLoop board size player fuel queue stones libs).2 := by
  intro fuel
  induction fuel with
  | zero =>
      intro queue stones libs hinv hfuel
      cases queue with
      | nil => simpa [bfsLoop] using hinv
      | cons curr rest => simp at hfuel
  | succ fuel ih =>
      intro queue stones libs hinv hfuel
      cases queue with
      | nil => simpa [bfsLoop] using hinv
      | cons curr rest =>
          obtain ⟨news, heq, hnd, hprop, hcomp⟩ :=
            foldl_visitNbr_spec board size player (neighborsOf curr) stones libs rest
          set S1 := stones ∪ news.toFinset with hS1
          set L1 := libs ∪ ((neighborsOf curr).filter (libCond board size)).toFinset with hL1
          set Q1 := rest ++ news with hQ1
          have hcur_st : curr ∈ stones := hinv.queue_sub curr (List.mem_cons_self _ _)
          have hrest_nd : rest.Nodup := (List.nodup_cons.mp hinv.queue_nodup).2
          have hcurr_rest : curr ∉ rest := (List.nodup_cons.mp hinv.queue_nodup).1
          have hnews_st : ∀ p ∈ news, p ∉ stones := fun p hp => (hprop p hp).1
          have hcurr_news : curr ∉ news := fun h => hnews_st curr h hcur_st
          have hcurr_Q1 : curr ∉ Q1 := by
            intro h
            rcases List.mem_append.mp h with h | h
            · exact hcurr_rest h
            · exact hcurr_news h
          have hmemS1 : ∀ p, p ∈ S1 ↔ p ∈ stones ∨ p ∈ news := by
            intro p
            simp [hS1]
          have hnotQ1 : ∀ p, p ∉ Q1 → p ∉ rest ∧ p ∉ news := by
            intro p hp
            constructor <;> intro h <;> exact hp (List.mem_append.mpr (by tauto))
          have hinv1 : BfsInv board size player start Q1 S1 L1 := by
            refine ⟨?_, ?_, ?_, ?_, ?_, ?_, ?_⟩
            · exact Finset.mem_union_left _ hinv.start_mem
            · intro p hp
              rcases (hmemS1 p).mp hp with h | h
              · exact hinv.stones_ok p h
              · obtain ⟨_, hmem, hinb, hcol⟩ := hprop p h
                refine ⟨hinb, hcol, ?_⟩
                exact Relation.ReflTransGen.tail (hinv.stones_ok curr hcur_st).2.2
                  ⟨hmem, hinb, hcol⟩
            · intro p hp
              rcases List.mem_append.mp hp with h | h
              · exact (hmemS1 p).mpr (Or.inl (hinv.queue_sub p (List.mem_cons_of_mem _ h)))
              · exact (hmemS1 p).mpr (Or.inr h)
            · refine List.Nodup.append hrest_nd hnd ?_
              intro a ha hna
              exact hnews_st a hna (hinv.queue_sub a (List.mem_cons_of_mem _ ha))
            · intro p hp hpq q hq hinq hcolq
              obtain ⟨hprest, hpnews⟩ := hnotQ1 p hpq
              rcases (hmemS1 p).mp hp with hpst | hpnews2
              · by_cases hpc : p = curr
                · subst hpc
                  rcases hcomp q hq hinq hcolq with h | h
                  · exact (hmemS1 q).mpr (Or.inl h)
                  · exact (hmemS1 q).mpr (Or.inr h)
                · have hpnotq : p ∉ curr :: rest := by
                    intro h
                    rcases List.mem_cons.mp h with h | h
                    · exact hpc h
                    · exact hprest h
                  exact (hmemS1 q).mpr
                    (Or.inl (hinv.closed p hpst hpnotq q hq hinq hcolq))
              · exact absurd (List.mem_append.mpr (Or.inr hpnews2)) hpq
            · intro x hx
              rcases Finset.mem_union.mp hx with h | h
              · obtain ⟨hinx, hempty, p, hpst, hpq, hadj⟩ := hinv.libs_sound x h
                have hpnotrest : p ∉ rest := fun hh => hpq (List.mem_cons_of_mem _ hh)
                have hpnotnews : p ∉ news := fun hh => hnews_st p hh hpst
                refine ⟨hinx, hempty, p, (hmemS1 p).mpr (Or.inl hpst), ?_, hadj⟩
                intro hh
                rcases List.mem_append.mp hh with hh | hh
                · exact hpnotrest hh
                · exact hpnotnews hh
              · rw [List.mem_toFinset, List.mem_filter] at h
                obtain ⟨hmem, hcond⟩ := h
                have hcond2 := hcond
                unfold libCond at hcond2
                rw [Bool.and_eq_true, decide_eq_true_iff, beq_iff_eq] at hcond2
                exact ⟨hcond2.1, hcond2.2, curr,
                  (hmemS1 curr).mpr (Or.inl hcur_st), hcurr_Q1, hmem⟩
            · intro p hp hpq x hx hinx hempty
              obtain ⟨hprest, hpnews⟩ := hnotQ1 p hpq
              rcases (hmemS1 p).mp hp with hpst | hpnews2
              · by_cases hpc : p = curr
                · subst hpc
                  refine Finset.mem_union_right _ ?_
                  rw [List.mem_toFinset, List.mem_filter]
                  refine ⟨hx, ?_⟩
                  unfold libCond
                  rw [Bool.and_eq_true, decide_eq_true_iff, beq_iff_eq]
                  exact ⟨hinx, hempty⟩
                · have hpnotq : p ∉ curr :: rest := by
                    intro h
                    rcases List.mem_cons.mp h with h | h
                    · exact hpc h
                    · exact hprest h
                  exact Finset.mem_union_left _
                    (hinv.libs_complete p hpst hpnotq x hx hinx hempty)
              · exact absurd (List.mem_append.mpr (Or.inr hpnews2)) hpq
          have hstep : bfsLoop board size player (fuel + 1) (curr :: rest) stones libs =
              bfsLoop board size player fuel Q1 S1 L1 := by
            simp only [bfsLoop]
            rw [heq]
          rw [hstep]
          refine ih Q1 S1 L1 hinv1 ?_
          have hcard_news : news.toFinset.card = news.length := List.toFinset_card_of_nodup hnd
          have hdisj : Disjoint stones news.toFinset := by
            rw [Finset.disjoint_right]
            intro a ha
            exact hnews_st a (List.mem_toFinset.mp ha)
          have hcardS1 : S1.card = stones.card + news.length := by
            rw [hS1, Finset.card_union_of_disjoint hdisj, hcard_news]
          have hS1sub : S1 ⊆ inBFinset size := by
            intro p hp
            exact mem_inBFinset.mpr (hinv1.stones_ok p hp).1
          have hS1le : S1.card ≤ size * size := by
            have := Finset.card_le_card hS1sub
            rwa [card_inBFinset] at this
          have hQ1len : Q1.length = rest.length + news.length := by
            simp [hQ1]
          simp only [List.length_cons] at hfuel
          omega

/-- With an empty queue the invariant pins the stone set down to exactly the
reachable set and the liberty set to the adjacent empties. -/
theorem bfsInv_final {board : Board} {size : Nat} {player : Player} {start : Pos}
    {S L : Finset Pos} (hinv : BfsInv board size player start [] S L) :
    (∀ p, p ∈ S ↔ Reaches board player size start p) ∧
    (∀ x, x ∈ L ↔ inB size x ∧ bget board x = none ∧ ∃ p, p ∈ S ∧ adjacent p x) := by
  have hS : ∀ p, p ∈ S ↔ Reaches board player size start p := by
    intro p
    constructor
    · intro hp
      exact (hinv.stones_ok p hp).2.2
    · intro hr
      induction hr with
      | refl => exact hinv.start_mem
      | tail hr2 hstep ih =>
          exact hinv.closed _ ih (List.not_mem_nil _) _ hstep.1 hstep.2.1 hstep.2.2
  refine ⟨hS, ?_⟩
  intro x
  constructor
  · intro hx
    obtain ⟨hinx, hempty, p, hpst, _, hadj⟩ := hinv.libs_sound x hx
    exact ⟨hinx, hempty, p, hpst, hadj⟩
  · rintro ⟨hinx, hempty, p, hpst, hadj⟩
    exact hinv.libs_complete p hpst (List.not_mem_nil _) x hadj hinx hempty

/-- Full characterization of `getGroupAndLiberties` on a stone: the stones
are exactly the 4-connected same-colored component of the start and the
liberties exactly the in-bounds empty points adjacent to the component. -/
theorem getGroupAndLiberties_spec (board : Board) (size : Nat) (start : Pos)
    (pl : Player) (hin : inB size start) (hcol : bget board start = some pl) :
    (getGroupAndLiberties board size start).player = pl ∧
    (∀ p, p ∈ (getGroupAndLiberties board size start).stones ↔
      Reaches board pl size start p) ∧
    (∀ x, x ∈ (getGroupAndLiberties board size start).liberties ↔
      inB size x ∧ bget board x = none ∧
        ∃ p, Reaches board pl size start p ∧ adjacent p x) := by
  have hinv0 : BfsInv board size pl start [start] {start} ∅ := by
    refine ⟨Finset.mem_singleton_self _, ?_, ?_, List.nodup_singleton _, ?_, ?_, ?_⟩
    · intro p hp
      rw [Finset.mem_singleton] at hp
      subst hp
      exact ⟨hin, hcol, Relation.ReflTransGen.refl⟩
    · intro p hp
      rw [Finset.mem_singleton]
      simpa using hp
    · intro p hp hpq
      rw [Finset.mem_singleton] at hp
      subst hp
      exact absurd (List.mem_singleton_self _) hpq
    · intro x hx
      exact absurd hx (Finset.not_mem_empty _)
    · intro p hp hpq
      rw [Finset.mem_singleton] at hp
      subst hp
      exact absurd (List.mem_singleton_self _) hpq
  have hone : 1 ≤ size * size := by
    have h1 : start ∈ inBFinset size := mem_inBFinset.mpr hin
    have h2 : 0 < (inBFinset size).card := Finset.card_pos.mpr ⟨start, h1⟩
    rwa [card_inBFinset] at h2
  have hfuel : 4 * (size * size - ({start} : Finset Pos).card) + [start].length ≤
      4 * size * size + 1 := by
    rw [Finset.card_singleton, List.length_singleton]
    have h4 : 4 * size * size = 4 * (size * size) := by ring
    rw [h4]
    generalize size * size = A
    omega
  have hpost := bfsLoop_post board size pl start (4 * size * size + 1) [start] {start} ∅
    hinv0 hfuel
  obtain ⟨hstones, hlibs⟩ := bfsInv_final hpost
  have hunfold : getGroupAndLiberties board size start =
      ⟨(bfsLoop board size pl (4 * size * size + 1) [start] {start} ∅).1,
       (bfsLoop board size pl (4 * size * size + 1) [start] {start} ∅).2, pl⟩ := by
    simp only [getGroupAndLiberties, hcol]
  rw [hunfold]
  refine ⟨rfl, hstones, ?_⟩
  intro x
  rw [hlibs x]
  constructor
  · rintro ⟨h1, h2, p, hp, hadj⟩
    exact ⟨h1, h2, p, (hstones p).mp hp, hadj⟩
  · rintro ⟨h1, h2, p, hp, hadj⟩
    exact ⟨h1, h2, p, (hstones p).mpr hp, hadj⟩

/-- `getGroupAndLiberties` on an empty point: the defensive empty result. -/
theorem getGroupAndLiberties_empty (board : Board) (size : Nat) (start : Pos)
    (h : bget board start = none) :
    getGroupAndLiberties board size start = ⟨∅, ∅, Player.Black⟩ := by
  simp only [getGroupAndLiberties, h]

/-! ## executeMove unfolding lemmas -/

theorem executeMove_occupied {b : Board} {size : Nat} {pos : Pos} {pl : Player}
    {prev : Option Board} (h : bhas b pos = true) :
    executeMove b size pos pl prev = ⟨b, false, false, 0⟩ := by
  simp [executeMove, h]

theorem executeMove_suicide {b : Board} {size : Nat} {pos : Pos} {pl : Player}
    {prev : Option Board} (h : bhas b pos = false)
    (hl : (getGroupAndLiberties (scanResult b size pos pl).1 size pos).liberties = ∅) :
    executeMove b size pos pl prev = ⟨b, false, false, 0⟩ := by
  simp [executeMove, h, hl]

theorem executeMove_ko {b : Board} {size : Nat} {pos : Pos} {pl : Player}
    {pb : Board} (h : bhas b pos = false)
    (hl : (getGroupAndLiberties (scanResult b size pos pl).1 size pos).liberties ≠ ∅)
    (hk : areBoardsEqual (scanResult b size pos pl).1 pb = true) :
    executeMove b size pos pl (some pb) = ⟨b, false, false, 0⟩ := by
  simp [executeMove, h, hl, hk]

theorem executeMove_accept_none {b : Board} {size : Nat} {pos : Pos} {pl : Player}
    (h : bhas b pos = false)
    (hl : (getGroupAndLiberties (scanResult b size pos pl).1 size pos).liberties ≠ ∅) :
    executeMove b size pos pl none =
      ⟨(scanResult b size pos pl).1, decide (0 < (scanResult b size pos pl).2), true,
        (scanResult b size pos pl).2⟩ := by
  simp [executeMove, h, hl]

theorem executeMove_accept_some {b : Board} {size : Nat} {pos : Pos} {pl : Player}
    {pb : Board} (h : bhas b pos = false)
    (hl : (getGroupAndLiberties (scanResult b size pos pl).1 size pos).liberties ≠ ∅)
    (hk : areBoardsEqual (scanResult b size pos pl).1 pb = false) :
    executeMove b size pos pl (some pb) =
      ⟨(scanResult b size pos pl).1, decide (0 < (scanResult b size pos pl).2), true,
        (scanResult b size pos pl).2⟩ := by
  simp [executeMove, h, hl, hk]

/-- Every rejection path returns the identical record built from the input
board. -/
theorem executeMove_invalid_eq (b : Board) (size : Nat) (pos : Pos) (pl : Player)
    (prev : Option Board) (h : (executeMove b size pos pl prev).valid = false) :
    executeMove b size pos pl prev = ⟨b, false, false, 0⟩ := by
  by_cases hocc : bhas b pos
  · exact executeMove_occupied hocc
  · rw [Bool.not_eq_true] at hocc
    by_cases hl : (getGroupAndLiberties (scanResult b size pos pl).1 size pos).liberties = ∅
    · exact executeMove_suicide hocc hl
    · cases prev with
      | none =>
          rw [executeMove_accept_none hocc hl] at h
          simp at h
      | some pb =>
          by_cases hk : areBoardsEqual (scanResult b size pos pl).1 pb = true
          · exact executeMove_ko hocc hl hk
          · rw [Bool.not_eq_true] at hk
            rw [executeMove_accept_some hocc hl hk] at h
            simp at h

/-! ## Claim C1 -/

/-- C1 (amended): whenever `executeMove` rejects a move — occupied point,
suicide, or ko — the returned record is exactly
`{newBoard: the caller's input board, captured: false, valid: false,
capturedStones: 0}`; in particular the caller's board is returned unchanged.
The result does not carry a distinguishing rejection reason. -/
theorem c1_rejection_returns_input_board (b : Board) (size : Nat) (pos : Pos)
    (pl : Player) (prev : Option Board)
    (h : (executeMove b size pos pl prev).valid = false) :
    executeMove b size pos pl prev = ⟨b, false, false, 0⟩ :=
  executeMove_invalid_eq b size pos pl prev h

/-- C1 witness: a concrete rejected move (occupied point) for which the
amended theorem applies. -/
theorem c1_witness :
    (executeMove [(⟨0, 1⟩, Player.White)] 2 ⟨0, 1⟩ Player.Black none).valid = false ∧
    executeMove [(⟨0, 1⟩, Player.White)] 2 ⟨0, 1⟩ Player.Black none =
      ⟨[(⟨0, 1⟩, Player.White)], false, false, 0⟩ :=
  ⟨by decide,
    c1_rejection_returns_input_board [(⟨0, 1⟩, Player.White)] 2 ⟨0, 1⟩ Player.Black none
      (by decide)⟩

/-- C1 counterexample: on the same board, a move rejected because the point
is occupied and a move rejected as suicide produce bit-for-bit identical
results, so the rejection is not "reported with a distinguishing reason":
the result record carries no reason at all. -/
theorem c1_counterexample :
    (bhas [(⟨0, 1⟩, Player.White), (⟨1, 0⟩, Player.White)] ⟨0, 1⟩ = true) ∧
    (bhas [(⟨0, 1⟩, Player.White), (⟨1, 0⟩, Player.White)] ⟨0, 0⟩ = false) ∧
    (executeMove [(⟨0, 1⟩, Player.White), (⟨1, 0⟩, Player.White)] 2 ⟨0, 1⟩
      Player.Black none).valid = false ∧
    (executeMove [(⟨0, 1⟩, Player.White), (⟨1, 0⟩, Player.White)] 2 ⟨0, 0⟩
      Player.Black none).valid = false ∧
    executeMove [(⟨0, 1⟩, Player.White), (⟨1, 0⟩, Player.White)] 2 ⟨0, 1⟩
        Player.Black none =
      executeMove [(⟨0, 1⟩, Player.White), (⟨1, 0⟩, Player.White)] 2 ⟨0, 0⟩
        Player.Black none := by
  decide

/-! ## Claim C5 -/

/-- C5: `getGroupAndLiberties` returns exactly the maximal 4-connected
uniformly-colored group containing the start stone — its members are the
positions reachable from the start through same-colored stones, pairwise
connected, and closed under same-colored adjacency — and its liberties are
exactly the in-bounds empty points 4-adjacent to some member; an empty start
point yields an empty group with no liberties. -/
theorem c5_group_finder_correct (board : Board) (size : Nat) (start : Pos) :
    (∀ pl, inB size start → bget board start = some pl →
      (getGroupAndLiberties board size start).player = pl ∧
      start ∈ (getGroupAndLiberties board size start).stones ∧
      (∀ p, p ∈ (getGroupAndLiberties board size start).stones ↔
        Reaches board pl size start p) ∧
      (∀ p, p ∈ (getGroupAndLiberties board size start).stones →
        inB size p ∧ bget board p = some pl) ∧
      (∀ p q, p ∈ (getGroupAndLiberties board size start).stones →
        q ∈ (getGroupAndLiberties board size start).stones →
        Reaches board pl size p q) ∧
      (∀ p q, p ∈ (getGroupAndLiberties board size start).stones →
        adjacent p q → inB size q → bget board q = some pl →
        q ∈ (getGroupAndLiberties board size start).stones) ∧
      (∀ x, x ∈ (getGroupAndLiberties board size start).liberties ↔
        inB size x ∧ bget board x = none ∧
          ∃ p, p ∈ (getGroupAndLiberties board size start).stones ∧ adjacent p x)) ∧
    (bget board start = none →
      getGroupAndLiberties board size start = ⟨∅, ∅, Player.Black⟩) := by
  constructor
  · intro pl hin hcol
    obtain ⟨hpl, hstones, hlibs⟩ := getGroupAndLiberties_spec board size start pl hin hcol
    refine ⟨hpl, (hstones start).mpr Relation.ReflTransGen.refl, hstones, ?_, ?_, ?_, ?_⟩
    · intro p hp
      rcases reaches_cases ((hstones p).mp hp) with rfl | ⟨h1, h2⟩
      · exact ⟨hin, hcol⟩
      · exact ⟨h1, h2⟩
    · intro p q hp hq
      have h1 := reaches_symm hin hcol ((hstones p).mp hp)
      exact reaches_trans h1 ((hstones q).mp hq)
    · intro p q hp hadj hinq hcolq
      exact (hstones q).mpr
        (Relation.ReflTransGen.tail ((hstones p).mp hp) ⟨hadj, hinq, hcolq⟩)
    · intro x
      rw [hlibs x]
      constructor
      · rintro ⟨h1, h2, p, hp, hadj⟩
        exact ⟨h1, h2, p, (hstones p).mpr hp, hadj⟩
      · rintro ⟨h1, h2, p, hp, hadj⟩
        exact ⟨h1, h2, p, (hstones p).mp hp, hadj⟩
  · exact getGroupAndLiberties_empty board size start

/-- C5 witness: the theorem applied to a concrete two-stone group. -/
theorem c5_witness :
    inB 2 (Pos.mk 0 0) ∧
    bget [(⟨0, 0⟩, Player.Black), (⟨0, 1⟩, Player.Black), (⟨1, 0⟩, Player.White)]
      (Pos.mk 0 0) = some Player.Black ∧
    ((getGroupAndLiberties
        [(⟨0, 0⟩, Player.Black), (⟨0, 1⟩, Player.Black), (⟨1, 0⟩, Player.White)]
        2 (Pos.mk 0 0)).player = Player.Black ∧
      Pos.mk 0 0 ∈ (getGroupAndLiberties
        [(⟨0, 0⟩, Player.Black), (⟨0, 1⟩, Player.Black), (⟨1, 0⟩, Player.White)]
        2 (Pos.mk 0 0)).stones) :=
  ⟨by decide, by decide,
    have h := (c5_group_finder_correct
      [(⟨0, 0⟩, Player.Black), (⟨0, 1⟩, Player.Black), (⟨1, 0⟩, Player.White)]
      2 ⟨0, 0⟩).1 Player.Black (by decide) (by decide)
    ⟨h.1, h.2.1⟩⟩

/-! ## Claim C8 -/

/-- C8 counterexample: the first-line point `(0,2)` on a 9×9 board at move
count `0` (early game) scores `3000`, not a strongly negative value: the
third-line bonus `dc === 2` fires before the first-line test is reached. -/
theorem c8_counterexample :
    getStrategicValue 0 2 9 0 = 3000 ∧ ¬ getStrategicValue 0 2 9 0 < 0 := by
  decide

/-- C8 (amended): before the late-game threshold (`moveCount <
0.8·size²`), a first-line point (distance-to-edge 0 in its row or column
coordinate) scores `-5000`, provided neither coordinate's distance-to-edge
is 2 or 3 (those fire the earlier third/fourth-line bonuses of `3000` /
`2500` instead). -/
theorem c8_first_line_penalty (r c : Int) (size moveCount : Nat)
    (hline : min r ((size : Int) - 1 - r) = 0 ∨ min c ((size : Int) - 1 - c) = 0)
    (hr2 : min r ((size : Int) - 1 - r) ≠ 2) (hr3 : min r ((size : Int) - 1 - r) ≠ 3)
    (hc2 : min c ((size : Int) - 1 - c) ≠ 2) (hc3 : min c ((size : Int) - 1 - c) ≠ 3)
    (hlate : 5 * moveCount < 4 * size * size) :
    getStrategicValue r c size moveCount = -5000 := by
  unfold getStrategicValue
  dsimp only
  rcases hline with h0 | h0 <;> split_ifs <;> first | rfl | tauto

/-- C8 witness: the amended theorem at the corner point of an empty 9×9
board. -/
theorem c8_witness :
    ((min (0 : Int) ((9 : Int) - 1 - 0) = 0 ∨ min (0 : Int) ((9 : Int) - 1 - 0) = 0) ∧
      5 * 0 < 4 * 9 * 9) ∧
    getStrategicValue 0 0 9 0 = -5000 :=
  ⟨⟨Or.inl (by decide), by decide⟩,
    c8_first_line_penalty 0 0 9 0 (Or.inl (by decide)) (by decide) (by decide)
      (by decide) (by decide) (by decide)⟩

/-! ## Board equality (areBoardsEqual) as extensional equality -/

theorem keysNodup_length_eq_card {b : Board} (h : KeysNodup b) :
    (b.map Prod.fst).toFinset.card = b.length := by
  rw [List.toFinset_card_of_nodup h, List.length_map]

theorem areBoardsEqual_iff_ext {b1 b2 : Board} (h1 : KeysNodup b1)
    (h2 : KeysNodup b2) :
    areBoardsEqual b1 b2 = true ↔ ∀ p, bget b1 p = bget b2 p := by
  unfold areBoardsEqual
  rw [Bool.and_eq_true, beq_iff_eq, List.all_eq_true]
  constructor
  · rintro ⟨hlen, hall⟩
    have hsub : (b1.map Prod.fst).toFinset ⊆ (b2.map Prod.fst).toFinset := by
      intro k hk
      rw [List.mem_toFinset] at hk ⊢
      rw [mem_keys_iff_bget_isSome] at hk
      obtain ⟨v, hv⟩ := Option.isSome_iff_exists.mp hk
      have hmem : (k, v) ∈ b1 := (bget_eq_some_iff b1 h1 k v).mp hv
      have := hall (k, v) hmem
      rw [beq_iff_eq] at this
      rw [mem_keys_iff_bget_isSome, this]
      rfl
    have hcard : (b2.map Prod.fst).toFinset.card ≤ (b1.map Prod.fst).toFinset.card := by
      rw [keysNodup_length_eq_card h1, keysNodup_length_eq_card h2, hlen]
    have hksEq : (b1.map Prod.fst).toFinset = (b2.map Prod.fst).toFinset :=
      Finset.eq_of_subset_of_card_le hsub hcard
    intro p
    cases hb : bget b1 p with
    | some v =>
        have hmem : (p, v) ∈ b1 := (bget_eq_some_iff b1 h1 p v).mp hb
        have := hall (p, v) hmem
        rw [beq_iff_eq] at this
        rw [this]
    | none =>
        cases hb2 : bget b2 p with
        | none => rfl
        | some w =>
            exfalso
            have hk2 : p ∈ (b2.map Prod.fst).toFinset := by
              rw [List.mem_toFinset, mem_keys_iff_bget_isSome, hb2]
              rfl
            rw [← hksEq, List.mem_toFinset, mem_keys_iff_bget_isSome, hb] at hk2
            simp at hk2
  · intro hext
    constructor
    · have hks : (b1.map Prod.fst).toFinset = (b2.map Prod.fst).toFinset := by
        ext k
        rw [List.mem_toFinset, List.mem_toFinset, mem_keys_iff_bget_isSome,
          mem_keys_iff_bget_isSome, hext k]
      rw [← keysNodup_length_eq_card h1, ← keysNodup_length_eq_card h2, hks]
    · intro e he
      obtain ⟨k, v⟩ := e
      have : bget b1 k = some v := (bget_eq_some_iff b1 h1 k v).mpr he
      rw [beq_iff_eq, ← hext k, this]

/-! ## Key uniqueness is preserved by the move pipeline -/

theorem mem_keys_bset (b : Board) (p : Pos) (c : Player) (q : Pos) :
    q ∈ (bset b p c).map Prod.fst ↔ q ∈ b.map Prod.fst ∨ q = p := by
  rw [mem_keys_iff_bget_isSome, mem_keys_iff_bget_isSome, bget_bset]
  by_cases h : p = q
  · subst h; simp
  · have : ¬ q = p := fun hh => h hh.symm
    simp [h, this]

theorem keysNodup_bset {b : Board} (h : KeysNodup b) (p : Pos) (c : Player) :
    KeysNodup (bset b p c) := by
  induction b with
  | nil => simp [bset, KeysNodup]
  | cons e rest ih =>
      obtain ⟨k, d⟩ := e
      have hknot : k ∉ rest.map Prod.fst := (List.nodup_cons.mp h).1
      have hrest : KeysNodup rest := (List.nodup_cons.mp h).2
      by_cases hk : k = p
      · subst hk
        have : bset ((k, d) :: rest) k c = (k, c) :: rest := by simp [bset]
        rw [this]
        exact List.nodup_cons.mpr ⟨hknot, hrest⟩
      · have : bset ((k, d) :: rest) p c = (k, d) :: bset rest p c := by simp [bset, hk]
        rw [this]
        refine List.nodup_cons.mpr ⟨?_, ih hrest⟩
        intro hmem
        rcases (mem_keys_bset rest p c k).mp hmem with hmem | hmem
        · exact hknot hmem
        · exact hk hmem

theorem keysNodup_bdelAll {b : Board} (h : KeysNodup b) (dead : Finset Pos) :
    KeysNodup (bdelAll b dead) := by
  unfold KeysNodup bdelAll
  exact ((List.filter_sublist b).map Prod.fst).nodup h

/-! ## Unfolding lemmas for the capture scan -/

theorem scanNbr_not_inB {size : Nat} {opp : Player} {st : Board × Nat} {n : Pos}
    (h : ¬ inB size n) : scanNbr size opp st n = st := by
  simp [scanNbr, h]

theorem scanNbr_none {size : Nat} {opp : Player} {st : Board × Nat} {n : Pos}
    (h : inB size n) (hc : bget st.1 n = none) : scanNbr size opp st n = st := by
  simp [scanNbr, h, hc]

theorem scanNbr_not_opp {size : Nat} {opp : Player} {st : Board × Nat} {n : Pos}
    {c : Player} (h : inB size n) (hc : bget st.1 n = some c) (hco : ¬ c = opp) :
    scanNbr size opp st n = st := by
  simp [scanNbr, h, hc, hco]

theorem scanNbr_alive {size : Nat} {opp : Player} {st : Board × Nat} {n : Pos}
    (h : inB size n) (hc : bget st.1 n = some opp)
    (hl : (getGroupAndLiberties st.1 size n).liberties ≠ ∅) :
    scanNbr size opp st n = st := by
  simp [scanNbr, h, hc, hl]

theorem scanNbr_capture {size : Nat} {opp : Player} {st : Board × Nat} {n : Pos}
    (h : inB size n) (hc : bget st.1 n = some opp)
    (hl : (getGroupAndLiberties st.1 size n).liberties = ∅) :
    scanNbr size opp st n =
      (bdelAll st.1 (getGroupAndLiberties st.1 size n).stones,
       st.2 + (getGroupAndLiberties st.1 size n).stones.card) := by
  simp [scanNbr, h, hc, hl]

/-- Any single scan step leaves the board unchanged or filters stones out. -/
theorem scanNbr_board_cases (size : Nat) (opp : Player) (st : Board × Nat) (n : Pos) :
    (scanNbr size opp st n).1 = st.1 ∨
    ∃ dead : Finset Pos, (scanNbr size opp st n).1 = bdelAll st.1 dead := by
  by_cases h : inB size n
  · cases hc : bget st.1 n with
    | none => rw [scanNbr_none h hc]; exact Or.inl rfl
    | some c =>
        by_cases hco : c = opp
        · subst hco
          by_cases hl : (getGroupAndLiberties st.1 size n).liberties = ∅
          · rw [scanNbr_capture h hc hl]
            exact Or.inr ⟨(getGroupAndLiberties st.1 size n).stones, rfl⟩
          · rw [scanNbr_alive h hc hl]; exact Or.inl rfl
        · rw [scanNbr_not_opp h hc hco]; exact Or.inl rfl
  · rw [scanNbr_not_inB h]; exact Or.inl rfl

theorem keysNodup_scan {size : Nat} {opp : Player} :
    ∀ (ns : List Pos) (st : Board × Nat), KeysNodup st.1 →
    KeysNodup ((ns.foldl (scanNbr size opp) st).1) := by
  intro ns
  induction ns with
  | nil => intro st h; exact h
  | cons n tail ih =>
      intro st h
      rw [List.foldl_cons]
      refine ih _ ?_
      rcases scanNbr_board_cases size opp st n with hcase | ⟨dead, hcase⟩
      · rw [hcase]; exact h
      · rw [hcase]; exact keysNodup_bdelAll h dead

theorem keysNodup_scanResult {b : Board} (h : KeysNodup b) (size : Nat) (pos : Pos)
    (pl : Player) : KeysNodup (scanResult b size pos pl).1 :=
  keysNodup_scan (neighborsOf pos) _ (keysNodup_bset h pos pl)

/-! ## Claim C3 -/

/-- C3: for an empty target position that is not a suicide (so the only
remaining rejection path is ko), supplying a previous-ply board makes
`executeMove` reject exactly when the tentative board after placement and
captures is extensionally equal to that previous-ply board (same occupied
points with the same colors); with no previous-ply board supplied, the move
is accepted — no move is ever rejected for ko. -/
theorem c3_ko_rule (b : Board) (size : Nat) (pos : Pos) (pl : Player) (pb : Board)
    (hnb : KeysNodup b) (hnpb : KeysNodup pb)
    (hempty : bhas b pos = false)
    (hnosuic : (getGroupAndLiberties (scanResult b size pos pl).1 size pos).liberties ≠ ∅) :
    ((executeMove b size pos pl (some pb)).valid = false ↔
      ∀ q, bget (scanResult b size pos pl).1 q = bget pb q) ∧
    (executeMove b size pos pl none).valid = true := by
  have hnodupNext : KeysNodup (scanResult b size pos pl).1 :=
    keysNodup_scanResult hnb size pos pl
  constructor
  · by_cases hk : areBoardsEqual (scanResult b size pos pl).1 pb = true
    · rw [executeMove_ko hempty hnosuic hk]
      simp only [true_iff]
      exact fun q => (areBoardsEqual_iff_ext hnodupNext hnpb).mp hk q
    · rw [Bool.not_eq_true] at hk
      rw [executeMove_accept_some hempty hnosuic hk]
      simp only [Bool.true_eq_false, false_iff]
      intro hext
      rw [← Bool.not_eq_true] at hk
      exact hk ((areBoardsEqual_iff_ext hnodupNext hnpb).mpr hext)
  · rw [executeMove_accept_none hempty hnosuic]

/-- C3 witness: the theorem applied to a concrete simple-ko recapture. -/
theorem c3_witness :
    (KeysNodup [(⟨0, 1⟩, Player.Black), (⟨1, 0⟩, Player.Black), (⟨2, 1⟩, Player.Black),
        (⟨0, 2⟩, Player.White), (⟨1, 3⟩, Player.White), (⟨2, 2⟩, Player.White),
        (⟨1, 2⟩, Player.Black)] ∧
      bhas [(⟨0, 1⟩, Player.Black), (⟨1, 0⟩, Player.Black), (⟨2, 1⟩, Player.Black),
        (⟨0, 2⟩, Player.White), (⟨1, 3⟩, Player.White), (⟨2, 2⟩, Player.White),
        (⟨1, 2⟩, Player.Black)] ⟨1, 1⟩ = false) ∧
    ((executeMove [(⟨0, 1⟩, Player.Black), (⟨1, 0⟩, Player.Black), (⟨2, 1⟩, Player.Black),
        (⟨0, 2⟩, Player.White), (⟨1, 3⟩, Player.White), (⟨2, 2⟩, Player.White),
        (⟨1, 2⟩, Player.Black)] 4 ⟨1, 1⟩ Player.White
        (some [(⟨0, 1⟩, Player.Black), (⟨1, 0⟩, Player.Black), (⟨2, 1⟩, Player.Black),
          (⟨0, 2⟩, Player.White), (⟨1, 3⟩, Player.White), (⟨2, 2⟩, Player.White),
          (⟨1, 1⟩, Player.White)])).valid = false ↔
      ∀ q, bget (scanResult [(⟨0, 1⟩, Player.Black), (⟨1, 0⟩, Player.Black),
          (⟨2, 1⟩, Player.Black), (⟨0, 2⟩, Player.White), (⟨1, 3⟩, Player.White),
          (⟨2, 2⟩, Player.White), (⟨1, 2⟩, Player.Black)] 4 ⟨1, 1⟩ Player.White).1 q =
        bget [(⟨0, 1⟩, Player.Black), (⟨1, 0⟩, Player.Black), (⟨2, 1⟩, Player.Black),
          (⟨0, 2⟩, Player.White), (⟨1, 3⟩, Player.White), (⟨2, 2⟩, Player.White),
          (⟨1, 1⟩, Player.White)] q) ∧
    (executeMove [(⟨0, 1⟩, Player.Black), (⟨1, 0⟩, Player.Black), (⟨2, 1⟩, Player.Black),
        (⟨0, 2⟩, Player.White), (⟨1, 3⟩, Player.White), (⟨2, 2⟩, Player.White),
        (⟨1, 2⟩, Player.Black)] 4 ⟨1, 1⟩ Player.White none).valid = true :=
  ⟨⟨by decide, by decide⟩,
    c3_ko_rule [(⟨0, 1⟩, Player.Black), (⟨1, 0⟩, Player.Black), (⟨2, 1⟩, Player.Black),
        (⟨0, 2⟩, Player.White), (⟨1, 3⟩, Player.White), (⟨2, 2⟩, Player.White),
        (⟨1, 2⟩, Player.Black)] 4 ⟨1, 1⟩ Player.White
      [(⟨0, 1⟩, Player.Black), (⟨1, 0⟩, Player.Black), (⟨2, 1⟩, Player.Black),
        (⟨0, 2⟩, Player.White), (⟨1, 3⟩, Player.White), (⟨2, 2⟩, Player.White),
        (⟨1, 1⟩, Player.White)] (by decide) (by decide) (by decide) (by decide)⟩

/-! ## Liberties of a group as a proposition -/

/-- The group of `q` (color `c`) has at least one liberty on board `b`. -/
def HasLib (b : Board) (c : Player) (size : Nat) (q : Pos) : Prop :=
  ∃ p x, Reaches b c size q p ∧ adjacent p x ∧ inB size x ∧ bget b x = none

/-- The BFS liberty set is nonempty exactly when the group has a liberty. -/
theorem libs_nonempty_iff_hasLib {b : Board} {size : Nat} {q : Pos} {c : Player}
    (hin : inB size q) (hcol : bget b q = some c) :
    (getGroupAndLiberties b size q).liberties ≠ ∅ ↔ HasLib b c size q := by
  obtain ⟨_, hstones, hlibs⟩ := getGroupAndLiberties_spec b size q c hin hcol
  constructor
  · intro hne
    obtain ⟨x, hx⟩ := Finset.nonempty_iff_ne_empty.mpr hne
    obtain ⟨hinx, hempty, p, hp, hadj⟩ := (hlibs x).mp hx
    exact ⟨p, x, hp, hadj, hinx, hempty⟩
  · rintro ⟨p, x, hp, hadj, hinx, hempty⟩
    intro hemp
    have : x ∈ (getGroupAndLiberties b size q).liberties :=
      (hlibs x).mpr ⟨hinx, hempty, p, hp, hadj⟩
    rw [hemp] at this
    exact Finset.not_mem_empty x this

/-- Points of the same color reached in a sub-board are also reached in any
board with at least those stones (pointwise). -/
theorem bget_none_of_sub {b B1 : Board}
    (hsub : ∀ x c, bget b x = some c → bget B1 x = some c) {x : Pos}
    (h : bget B1 x = none) : bget b x = none := by
  cases hb : bget b x with
  | none => rfl
  | some c =>
      rw [hsub x c hb] at h
      exact absurd h (by simp)

/-- Transfer of a liberty from a larger board down to a stage of the scan:
if everything the group reaches on the large board is still present, the
liberty survives too. -/
theorem hasLib_down {B1 b : Board} {opp : Player} {size : Nat} {q : Pos}
    (hsub : ∀ x c, bget b x = some c → bget B1 x = some c)
    (hcolb : bget b q = some opp)
    (hclosed : ∀ x, Reaches B1 opp size q x → bget b x = some opp)
    (h : HasLib B1 opp size q) : HasLib b opp size q := by
  obtain ⟨p, x, hreach, hadj, hinx, hempty⟩ := h
  refine ⟨p, x, ?_, hadj, hinx, bget_none_of_sub hsub hempty⟩
  refine reaches_restrict ?_ hreach
  intro y hy
  rw [hclosed y hy]
  rcases reaches_cases hy with rfl | ⟨_, hc⟩
  · rw [hsub y opp hcolb]
  · rw [hc]

/-- A liberty survives the deletion of a disjoint group. -/
theorem hasLib_delete {b : Board} {opp : Player} {size : Nat} {q : Pos}
    {dead : Finset Pos}
    (hdisj : ∀ y, Reaches b opp size q y → y ∉ dead)
    (h : HasLib b opp size q) : HasLib (bdelAll b dead) opp size q := by
  obtain ⟨p, x, hreach, hadj, hinx, hempty⟩ := h
  refine ⟨p, x, ?_, hadj, hinx, ?_⟩
  · refine reaches_restrict ?_ hreach
    intro y hy
    rw [bget_bdelAll]
    simp [hdisj y hy]
  · rw [bget_bdelAll]
    by_cases hx : x ∈ dead <;> simp [hx, hempty]

/-- Components of distinct surviving stones avoid a deleted component. -/
theorem comp_avoid {b : Board} {opp : Player} {size : Nat} {n n2 : Pos}
    (hinn : inB size n) (hcoln : bget b n = some opp)
    (hnot : ¬ Reaches b opp size n2 n) :
    ∀ y, Reaches b opp size n y → ¬ Reaches b opp size n2 y := by
  intro y hy hy2
  exact hnot (reaches_trans hy2 (reaches_symm hinn hcoln hy))

/-! ## Invariant of the capture scan -/

/-- Relation between the tentative board `B1` (after placement) and a stage
`B`/`cap` of the capture scan around `pos`. -/
structure ScanInv (B1 : Board) (opp : Player) (size : Nat) (pos : Pos)
    (B : Board) (cap : Nat) : Prop where
  sub : ∀ x c, bget B x = some c → bget B1 x = some c
  deleted : ∀ x, bget B1 x ≠ bget B x →
    bget B1 x = some opp ∧ bget B x = none ∧
    ∃ n, adjacent pos n ∧ inB size n ∧ bget B1 n = some opp ∧
      Reaches B1 opp size n x ∧ ¬ HasLib B1 opp size n
  comp_closed : ∀ q x, inB size q → bget B q = some opp →
    Reaches B1 opp size q x → bget B x = some opp
  cap_pos : 0 < cap →
    ∃ n, adjacent pos n ∧ inB size n ∧ bget B1 n = some opp ∧ bget B n = none

/-- The invariant holds at the start of the scan. -/
theorem scanInv_init (B1 : Board) (opp : Player) (size : Nat) (pos : Pos) :
    ScanInv B1 opp size pos B1 0 := by
  refine ⟨?_, ?_, ?_, ?_⟩
  · intro x c h; exact h
  · intro x h; exact absurd rfl h
  · intro q x hq hcol hr
    rcases reaches_cases hr with rfl | ⟨_, hc⟩
    · exact hcol
    · exact hc
  · intro h; exact absurd h (by simp)

/-- The capture scan preserves the invariant and establishes that every
scanned neighbour still on the board keeps a liberty. -/
theorem scan_spec (B1 : Board) (opp : Player) (size : Nat) (pos : Pos) :
    ∀ (ns : List Pos) (st : Board × Nat) (done : List Pos),
    (∀ n ∈ ns, adjacent pos n) →
    ScanInv B1 opp size pos st.1 st.2 →
    (∀ n ∈ done, inB size n → bget st.1 n = some opp → HasLib st.1 opp size n) →
    ScanInv B1 opp size pos (ns.foldl (scanNbr size opp) st).1
        (ns.foldl (scanNbr size opp) st).2 ∧
      (∀ n ∈ done ++ ns, inB size n →
        bget (ns.foldl (scanNbr size opp) st).1 n = some opp →
        HasLib (ns.foldl (scanNbr size opp) st).1 opp size n) := by
  intro ns
  induction ns with
  | nil =>
      intro st done hadj hinv hdone
      refine ⟨hinv, ?_⟩
      intro n hn
      rw [List.append_nil] at hn
      exact hdone n hn
  | cons nb tail ih =>
      intro st done hadj hinv hdone
      rw [List.foldl_cons]
      have hadjnb : adjacent pos nb := hadj nb (List.mem_cons_self _ _)
      have hadjtail : ∀ n ∈ tail, adjacent pos n :=
        fun n hn => hadj n (List.mem_cons_of_mem _ hn)
      have happ : done ++ nb :: tail = (done ++ [nb]) ++ tail := by simp
      rw [happ]
      by_cases hin : inB size nb
      · cases hc : bget st.1 nb with
        | none =>
            rw [scanNbr_none hin hc]
            refine ih st (done ++ [nb]) hadjtail hinv ?_
            intro n hn hinn hcoln
            rcases List.mem_append.mp hn with hn | hn
            · exact hdone n hn hinn hcoln
            · rw [List.mem_singleton] at hn
              subst hn
              rw [hc] at hcoln
              exact absurd hcoln (by simp)
        | some c =>
            by_cases hco : c = opp
            · subst hco
              by_cases hl : (getGroupAndLiberties st.1 size nb).liberties = ∅
              · -- capture: the whole group of nb is removed
                rw [scanNbr_capture hin hc hl]
                obtain ⟨_, hstones, hlibs⟩ :=
                  getGroupAndLiberties_spec st.1 size nb c hin hc
                have hdead : ∀ y, y ∈ (getGroupAndLiberties st.1 size nb).stones ↔
                    Reaches st.1 c size nb y := hstones
                have hnolibB : ¬ HasLib st.1 c size nb := by
                  rw [← libs_nonempty_iff_hasLib hin hc]
                  simpa using hl
                have hB1nb : bget B1 nb = some c := hinv.sub nb c hc
                have hnolibB1 : ¬ HasLib B1 c size nb := by
                  intro hhl
                  exact hnolibB (hasLib_down hinv.sub hc
                    (fun x hx => hinv.comp_closed nb x hin hc hx) hhl)
                set B := st.1 with hB
                set dead := (getGroupAndLiberties st.1 size nb).stones with hdeadset
                set Bp := bdelAll B dead with hBp
                have hBp_get : ∀ x, bget Bp x = if x ∈ dead then none else bget B x :=
                  fun x => bget_bdelAll B dead x
                have hmono_opp : ∀ y, bget B y = some c → bget B1 y = some c :=
                  fun y hy => hinv.sub y c hy
                have hreach_up : ∀ y, Reaches B c size nb y → Reaches B1 c size nb y :=
                  fun y hy => reaches_mono hmono_opp hy
                have hdead_colored : ∀ y, y ∈ dead → bget B y = some c := by
                  intro y hy
                  rcases reaches_cases ((hdead y).mp hy) with rfl | ⟨_, hcc⟩
                  · exact hc
                  · exact hcc
                have hinv2 : ScanInv B1 c size pos Bp (st.2 + dead.card) := by
                  refine ⟨?_, ?_, ?_, ?_⟩
                  · intro x d hx
                    rw [hBp_get] at hx
                    by_cases hxd : x ∈ dead
                    · rw [if_pos hxd] at hx; exact absurd hx (by simp)
                    · rw [if_neg hxd] at hx; exact hinv.sub x d hx
                  · intro x hx
                    rw [hBp_get] at hx
                    by_cases hxd : x ∈ dead
                    · have hxr := (hdead x).mp hxd
                      have hcolx : bget B x = some c := hdead_colored x hxd
                      refine ⟨hinv.sub x c hcolx, by rw [hBp_get, if_pos hxd], nb,
                        hadjnb, hin, hB1nb, hreach_up x hxr, hnolibB1⟩
                    · rw [if_neg hxd] at hx
                      obtain ⟨h1, h2, h3⟩ := hinv.deleted x hx
                      exact ⟨h1, by rw [hBp_get, if_neg hxd]; exact h2, h3⟩
                  · intro q x hq hcolq hr
                    rw [hBp_get] at hcolq
                    by_cases hqd : q ∈ dead
                    · rw [if_pos hqd] at hcolq; exact absurd hcolq (by simp)
                    rw [if_neg hqd] at hcolq
                    have hBx : bget B x = some c := hinv.comp_closed q x hq hcolq hr
                    have hreach_down : ∀ y, Reaches B1 c size q y → Reaches B c size q y := by
                      intro y hy
                      refine reaches_restrict ?_ hy
                      intro z hz
                      rw [hinv.comp_closed q z hq hcolq hz]
                      rcases reaches_cases hz with rfl | ⟨_, hcc⟩
                      · rw [hinv.sub z c hcolq]
                      · rw [hcc]
                    have hxnd : x ∉ dead := by
                      intro hxd
                      have h1 : Reaches B c size q x := hreach_down x hr
                      have h2 : Reaches B c size nb x := (hdead x).mp hxd
                      have h3 : Reaches B c size x q := reaches_symm hq hcolq h1
                      have : Reaches B c size nb q := reaches_trans h2 h3
                      exact hqd ((hdead q).mpr this)
                    rw [hBp_get, if_neg hxnd]
                    exact hBx
                  · intro _
                    refine ⟨nb, hadjnb, hin, hB1nb, ?_⟩
                    rw [hBp_get, if_pos ((hdead nb).mpr Relation.ReflTransGen.refl)]
                have hdone2 : ∀ n ∈ done ++ [nb], inB size n →
                    bget Bp n = some c → HasLib Bp c size n := by
                  intro n hn hinn hcoln
                  rw [hBp_get] at hcoln
                  by_cases hnd : n ∈ dead
                  · rw [if_pos hnd] at hcoln; exact absurd hcoln (by simp)
                  rw [if_neg hnd] at hcoln
                  rcases List.mem_append.mp hn with hn | hn
                  · have hold := hdone n hn hinn hcoln
                    refine hasLib_delete ?_ hold
                    have hnotnb : ¬ Reaches B c size nb n :=
                      fun hh => hnd ((hdead n).mpr hh)
                    intro y hy hyd
                    exact comp_avoid hinn hcoln hnotnb y hy ((hdead y).mp hyd)
                  · rw [List.mem_singleton] at hn
                    subst hn
                    exact absurd ((hdead n).mpr Relation.ReflTransGen.refl) hnd
                exact ih (Bp, st.2 + dead.card) (done ++ [nb]) hadjtail hinv2 hdone2
              · -- the neighbour group is alive: nothing changes
                rw [scanNbr_alive hin hc hl]
                refine ih st (done ++ [nb]) hadjtail hinv ?_
                intro n hn hinn hcoln
                rcases List.mem_append.mp hn with hn | hn
                · exact hdone n hn hinn hcoln
                · rw [List.mem_singleton] at hn
                  subst hn
                  exact (libs_nonempty_iff_hasLib hinn hcoln).mp hl
            · rw [scanNbr_not_opp hin hc hco]
              refine ih st (done ++ [nb]) hadjtail hinv ?_
              intro n hn hinn hcoln
              rcases List.mem_append.mp hn with hn | hn
              · exact hdone n hn hinn hcoln
              · rw [List.mem_singleton] at hn
                subst hn
                rw [hc] at hcoln
                exact absurd (Option.some.inj hcoln) (fun hh => hco hh)
      · rw [scanNbr_not_inB hin]
        refine ih st (done ++ [nb]) hadjtail hinv ?_
        intro n hn hinn hcoln
        rcases List.mem_append.mp hn with hn | hn
        · exact hdone n hn hinn hcoln
        · rw [List.mem_singleton] at hn
          subst hn
          exact absurd hinn hin

theorem Player.opp_ne (pl : Player) : pl.opp ≠ pl := by
  cases pl <;> simp [Player.opp]

/-- The scan invariant and survivor property at the end of the capture scan. -/
theorem scanResult_spec (b : Board) (size : Nat) (pos : Pos) (pl : Player) :
    ScanInv (bset b pos pl) pl.opp size pos (scanResult b size pos pl).1
        (scanResult b size pos pl).2 ∧
      (∀ n, adjacent pos n → inB size n →
        bget (scanResult b size pos pl).1 n = some pl.opp →
        HasLib (scanResult b size pos pl).1 pl.opp size n) := by
  have h := scan_spec (bset b pos pl) pl.opp size pos (neighborsOf pos)
    (bset b pos pl, 0) [] (fun n hn => hn) (scanInv_init _ _ _ _)
    (fun n hn => absurd hn (List.not_mem_nil n))
  refine ⟨h.1, ?_⟩
  intro n hadj hin hcol
  exact h.2 n (by simpa using hadj) hin hcol

/-- Stones of the mover are never removed by the capture scan. -/
theorem scan_preserves_player {b : Board} {size : Nat} {pos : Pos} {pl : Player}
    {x : Pos} (hx : bget (bset b pos pl) x = some pl) :
    bget (scanResult b size pos pl).1 x = some pl := by
  obtain ⟨hinv, _⟩ := scanResult_spec b size pos pl
  by_cases hne : bget (bset b pos pl) x = bget (scanResult b size pos pl).1 x
  · rw [← hne]; exact hx
  · obtain ⟨h1, _, _⟩ := hinv.deleted x hne
    rw [hx] at h1
    exact absurd (Option.some.inj h1).symm (Player.opp_ne pl)

/-- After the scan the placed stone is still on the tentative board. -/
theorem scanResult_pos_stone (b : Board) (size : Nat) (pos : Pos) (pl : Player) :
    bget (scanResult b size pos pl).1 pos = some pl := by
  refine scan_preserves_player ?_
  rw [bget_bset, if_pos rfl]

/-- A capture during the scan always leaves the mover's group a liberty: the
captured neighbour's point itself is freed. -/
theorem cap_pos_implies_lib (b : Board) (size : Nat) (pos : Pos) (pl : Player)
    (hpos : inB size pos) (hcap : 0 < (scanResult b size pos pl).2) :
    (getGroupAndLiberties (scanResult b size pos pl).1 size pos).liberties ≠ ∅ := by
  obtain ⟨hinv, _⟩ := scanResult_spec b size pos pl
  obtain ⟨n, hadj, hin, _, hB2n⟩ := hinv.cap_pos hcap
  rw [libs_nonempty_iff_hasLib hpos (scanResult_pos_stone b size pos pl)]
  exact ⟨pos, n, Relation.ReflTransGen.refl, hadj, hin, hB2n⟩

/-! ## Claim C2 -/

/-- C2: with no previous-ply board, a move on an empty point is rejected
exactly when, on the tentative board after the opponent-capture scan, the
mover's own group has zero liberties and no capture occurred; and a move
that captured at least one opponent stone is always accepted. -/
theorem c2_suicide_rule (b : Board) (size : Nat) (pos : Pos) (pl : Player)
    (hpos : inB size pos) (hempty : bhas b pos = false) :
    ((executeMove b size pos pl none).valid = false ↔
      ((getGroupAndLiberties (scanResult b size pos pl).1 size pos).liberties = ∅ ∧
        (scanResult b size pos pl).2 = 0)) ∧
    (0 < (scanResult b size pos pl).2 → (executeMove b size pos pl none).valid = true) := by
  have hcap_acc : 0 < (scanResult b size pos pl).2 →
      (executeMove b size pos pl none).valid = true := by
    intro hcap
    rw [executeMove_accept_none hempty (cap_pos_implies_lib b size pos pl hpos hcap)]
  refine ⟨?_, hcap_acc⟩
  constructor
  · intro hval
    by_cases hl : (getGroupAndLiberties (scanResult b size pos pl).1 size pos).liberties = ∅
    · refine ⟨hl, ?_⟩
      by_contra hcap
      have : 0 < (scanResult b size pos pl).2 := Nat.pos_of_ne_zero hcap
      exact (cap_pos_implies_lib b size pos pl hpos this) hl
    · rw [executeMove_accept_none hempty hl] at hval
      exact absurd hval (by simp)
  · rintro ⟨hl, _⟩
    rw [executeMove_suicide hempty hl]

/-- C2 witness: the theorem at a concrete suicide point (Black plays the
corner of a 2×2 board whose other two points are White). -/
theorem c2_witness :
    (inB 2 (Pos.mk 0 0) ∧
      bhas [(⟨0, 1⟩, Player.White), (⟨1, 0⟩, Player.White)] ⟨0, 0⟩ = false) ∧
    ((executeMove [(⟨0, 1⟩, Player.White), (⟨1, 0⟩, Player.White)] 2 ⟨0, 0⟩
        Player.Black none).valid = false ↔
      ((getGroupAndLiberties
          (scanResult [(⟨0, 1⟩, Player.White), (⟨1, 0⟩, Player.White)] 2 ⟨0, 0⟩
            Player.Black).1 2 ⟨0, 0⟩).liberties = ∅ ∧
        (scanResult [(⟨0, 1⟩, Player.White), (⟨1, 0⟩, Player.White)] 2 ⟨0, 0⟩
          Player.Black).2 = 0)) :=
  ⟨⟨by decide, by decide⟩,
    (c2_suicide_rule [(⟨0, 1⟩, Player.White), (⟨1, 0⟩, Player.White)] 2 ⟨0, 0⟩
      Player.Black (by decide) (by decide)).1⟩

/-- What acceptance of a move tells us about the pipeline. -/
theorem executeMove_valid_facts (b : Board) (size : Nat) (pos : Pos) (pl : Player)
    (prev : Option Board) (h : (executeMove b size pos pl prev).valid = true) :
    bhas b pos = false ∧
    (getGroupAndLiberties (scanResult b size pos pl).1 size pos).liberties ≠ ∅ ∧
    (executeMove b size pos pl prev).newBoard = (scanResult b size pos pl).1 ∧
    (executeMove b size pos pl prev).capturedStones = (scanResult b size pos pl).2 ∧
    (executeMove b size pos pl prev).captured =
      decide (0 < (scanResult b size pos pl).2) := by
  by_cases hocc : bhas b pos
  · rw [executeMove_occupied hocc] at h
    exact absurd h (by simp)
  · rw [Bool.not_eq_true] at hocc
    by_cases hl : (getGroupAndLiberties (scanResult b size pos pl).1 size pos).liberties = ∅
    · rw [executeMove_suicide hocc hl] at h
      exact absurd h (by simp)
    · cases prev with
      | none =>
          rw [executeMove_accept_none hocc hl]
          exact ⟨hocc, hl, rfl, rfl, rfl⟩
      | some pb =>
          by_cases hk : areBoardsEqual (scanResult b size pos pl).1 pb = true
          · rw [executeMove_ko hocc hl hk] at h
            exact absurd h (by simp)
          · rw [Bool.not_eq_true] at hk
            rw [executeMove_accept_some hocc hl hk]
            exact ⟨hocc, hl, rfl, rfl, rfl⟩

/-! ## Claim C6 -/

/-- Every stone of the board lies inside the grid (data-model invariant). -/
def InRange (b : Board) (size : Nat) : Prop :=
  ∀ p c, bget b p = some c → inB size p

/-- Every group on the board has at least one liberty. -/
def AllAlive (b : Board) (size : Nat) : Prop :=
  ∀ p c, bget b p = some c → HasLib b c size p

/-- The first entry `bget` finds is an entry of the list. -/
theorem bget_mem {b : Board} {p : Pos} {c : Player} (h : bget b p = some c) :
    (p, c) ∈ b := by
  induction b with
  | nil => simp [bget] at h
  | cons e rest ih =>
      obtain ⟨k, d⟩ := e
      by_cases hk : k = p
      · subst hk
        rw [bget, if_pos rfl] at h
        exact List.mem_cons.mpr (Or.inl (by rw [Option.some.inj h]))
      · rw [bget, if_neg hk] at h
        exact List.mem_cons.mpr (Or.inr (ih h))

/-- Decidable sufficient condition for `InRange`. -/
theorem inRange_of_check {b : Board} {size : Nat}
    (h : b.all (fun e => decide (inB size e.1)) = true) : InRange b size := by
  intro p c hp
  have := List.all_eq_true.mp h (p, c) (bget_mem hp)
  exact of_decide_eq_true this

/-- Decidable sufficient condition for `AllAlive`. -/
theorem allAlive_of_check {b : Board} {size : Nat} (hr : InRange b size)
    (h : b.all (fun e =>
      decide ((getGroupAndLiberties b size e.1).liberties ≠ ∅)) = true) :
    AllAlive b size := by
  intro p c hp
  have hin : inB size p := hr p c hp
  have := List.all_eq_true.mp h (p, c) (bget_mem hp)
  have hne := of_decide_eq_true this
  exact (libs_nonempty_iff_hasLib hin hp).mp hne

/-- C6: if every group of the input board has a liberty, then after any
accepted move no opponent stone belongs to a zero-liberty group on the
resulting board, and the mover's own group has a liberty (or a capture
occurred). -/
theorem c6_no_dead_groups (b : Board) (size : Nat) (pos : Pos) (pl : Player)
    (prev : Option Board) (hrange : InRange b size) (halive : AllAlive b size)
    (hpos : inB size pos)
    (hvalid : (executeMove b size pos pl prev).valid = true) :
    (∀ q, bget (executeMove b size pos pl prev).newBoard q = some pl.opp →
      HasLib (executeMove b size pos pl prev).newBoard pl.opp size q) ∧
    (HasLib (executeMove b size pos pl prev).newBoard pl size pos ∨
      (executeMove b size pos pl prev).captured = true) := by
  obtain ⟨hempty, hl, hnew, _, _⟩ := executeMove_valid_facts b size pos pl prev hvalid
  rw [hnew]
  obtain ⟨hinv, hsurv⟩ := scanResult_spec b size pos pl
  have hposB2 : bget (scanResult b size pos pl).1 pos = some pl :=
    scanResult_pos_stone b size pos pl
  constructor
  · intro q hq
    have hB1q : bget (bset b pos pl) q = some pl.opp := hinv.sub q _ hq
    have hqpos : q ≠ pos := by
      intro hqp
      subst hqp
      rw [bget_bset, if_pos rfl] at hB1q
      exact Player.opp_ne pl (Option.some.inj hB1q).symm
    have hbq : bget b q = some pl.opp := by
      rw [bget_bset, if_neg (fun hh => hqpos hh.symm)] at hB1q
      exact hB1q
    have hinq : inB size q := hrange q _ hbq
    by_cases hcaseA : ∃ n, adjacent pos n ∧ inB size n ∧
        bget (scanResult b size pos pl).1 n = some pl.opp ∧
        Reaches (scanResult b size pos pl).1 pl.opp size q n
    · obtain ⟨n, hadjn, hinn, hcoln, hreach⟩ := hcaseA
      obtain ⟨p, x, hr, hadj, hinx, hemp⟩ := hsurv n hadjn hinn hcoln
      exact ⟨p, x, reaches_trans hreach hr, hadj, hinx, hemp⟩
    · push_neg at hcaseA
      obtain ⟨p, x, hr_b, hadj, hinx, hempty_b⟩ := halive q pl.opp hbq
      have hcongr : ∀ y, bget b y = some pl.opp ↔ bget (bset b pos pl) y = some pl.opp := by
        intro y
        rw [bget_bset]
        by_cases hy : pos = y
        · subst hy
          rw [if_pos rfl]
          rw [bhas_eq_false_iff] at hempty
          constructor
          · intro hh; rw [hempty] at hh; exact absurd hh (by simp)
          · intro hh; exact absurd (Option.some.inj hh).symm (Player.opp_ne pl)
        · rw [if_neg hy]
      have hr_B1 : Reaches (bset b pos pl) pl.opp size q p :=
        reaches_congr (fun y => (hcongr y)) hr_b
      have hagree : ∀ y, Reaches (bset b pos pl) pl.opp size q y →
          bget (scanResult b size pos pl).1 y = bget (bset b pos pl) y := by
        intro y hy
        have h1 := hinv.comp_closed q y hinq hq hy
        rw [h1, hinv.sub y _ h1]
      have hr_B2 : Reaches (scanResult b size pos pl).1 pl.opp size q p :=
        reaches_restrict hagree hr_B1
      have hcolp : bget (scanResult b size pos pl).1 p = some pl.opp := by
        rcases reaches_cases hr_B2 with rfl | ⟨_, hcc⟩
        · exact hq
        · exact hcc
      have hinp : inB size p := by
        rcases reaches_cases hr_B2 with rfl | ⟨hi, _⟩
        · exact hinq
        · exact hi
      have hx_ne_pos : x ≠ pos := by
        intro hxp
        subst hxp
        exact hcaseA p (adjacent_symm hadj) hinp hcolp hr_B2
      have hB1x : bget (bset b pos pl) x = none := by
        rw [bget_bset, if_neg (fun hh => hx_ne_pos hh.symm)]
        exact hempty_b
      exact ⟨p, x, hr_B2, hadj, hinx, bget_none_of_sub hinv.sub hB1x⟩
  · left
    exact (libs_nonempty_iff_hasLib hpos hposB2).mp hl

/-- C6 witness: the theorem at a concrete legal move. -/
theorem c6_witness :
    (inB 2 (Pos.mk 1 1) ∧
      (executeMove [(⟨0, 0⟩, Player.Black)] 2 ⟨1, 1⟩ Player.White none).valid = true) ∧
    (∀ q, bget (executeMove [(⟨0, 0⟩, Player.Black)] 2 ⟨1, 1⟩
        Player.White none).newBoard q = some Player.White.opp →
      HasLib (executeMove [(⟨0, 0⟩, Player.Black)] 2 ⟨1, 1⟩
        Player.White none).newBoard Player.White.opp 2 q) :=
  ⟨⟨by decide, by decide⟩,
    (c6_no_dead_groups [(⟨0, 0⟩, Player.Black)] 2 ⟨1, 1⟩ Player.White none
      (inRange_of_check (by decide)) (allAlive_of_check (inRange_of_check (by decide))
        (by decide)) (by decide) (by decide)).1⟩

/-! ## Claim C10 -/

/-- C10: any accepted move changes the board exactly by: the target point now
holds the mover's stone; some opponent stones — each belonging to a group
that is adjacent to the placed stone and has zero liberties on the
tentative board — are removed; every other point is unchanged, and no stone
of the mover's color is ever removed. -/
theorem c10_frame_effect (b : Board) (size : Nat) (pos : Pos) (pl : Player)
    (prev : Option Board)
    (hvalid : (executeMove b size pos pl prev).valid = true) :
    bget (executeMove b size pos pl prev).newBoard pos = some pl ∧
    (∀ q, q ≠ pos →
      bget (executeMove b size pos pl prev).newBoard q = bget b q ∨
      (bget b q = some pl.opp ∧
        bget (executeMove b size pos pl prev).newBoard q = none ∧
        ∃ n, adjacent pos n ∧ inB size n ∧ bget (bset b pos pl) n = some pl.opp ∧
          Reaches (bset b pos pl) pl.opp size n q ∧
          ¬ HasLib (bset b pos pl) pl.opp size n)) ∧
    (∀ q, bget b q = some pl →
      bget (executeMove b size pos pl prev).newBoard q = some pl) := by
  obtain ⟨hempty, _, hnew, _, _⟩ := executeMove_valid_facts b size pos pl prev hvalid
  rw [hnew]
  obtain ⟨hinv, _⟩ := scanResult_spec b size pos pl
  refine ⟨scanResult_pos_stone b size pos pl, ?_, ?_⟩
  · intro q hq
    by_cases hne : bget (bset b pos pl) q = bget (scanResult b size pos pl).1 q
    · left
      rw [← hne, bget_bset, if_neg (fun hh => hq hh.symm)]
    · right
      obtain ⟨h1, h2, h3⟩ := hinv.deleted q (fun hh => hne hh)
      rw [bget_bset, if_neg (fun hh => hq hh.symm)] at h1
      exact ⟨h1, h2, h3⟩
  · intro q hqpl
    have hqpos : q ≠ pos := by
      intro hh
      subst hh
      rw [bhas_eq_false_iff] at hempty
      rw [hempty] at hqpl
      exact absurd hqpl (by simp)
    refine scan_preserves_player ?_
    rw [bget_bset, if_neg (fun hh => hqpos hh.symm)]
    exact hqpl

/-- C10 witness: a concrete capture (White takes the Black corner stone). -/
theorem c10_witness :
    ((executeMove [(⟨0, 0⟩, Player.Black), (⟨0, 1⟩, Player.White)] 2 ⟨1, 0⟩
        Player.White none).valid = true) ∧
    bget (executeMove [(⟨0, 0⟩, Player.Black), (⟨0, 1⟩, Player.White)] 2 ⟨1, 0⟩
      Player.White none).newBoard ⟨1, 0⟩ = some Player.White :=
  ⟨by decide,
    (c10_frame_effect [(⟨0, 0⟩, Player.Black), (⟨0, 1⟩, Player.White)] 2 ⟨1, 0⟩
      Player.White none (by decide)).1⟩

/-! ## TerritoryAnalyzer (analyzeTerritory, src/unnamed/part_000 lines 75-121) -/

/-- The owner assigned to an empty region: a `Player` or the source's
string literal owner value, here a constructor. -/
inductive TOwner where
  | ofPlayer : Player → TOwner
  | neutral : TOwner
deriving DecidableEq, Repr

/-- One neighbour classification of the territory flood fill: a stone
contributes its color to `borderPlayers`; an unvisited empty point joins the
region. State is `(visited, region, border, queue)`. -/
def terrVisit (board : Board) (size : Nat)
    (st : Finset Pos × Finset Pos × Finset Player × List Pos) (next : Pos) :
    Finset Pos × Finset Pos × Finset Player × List Pos :=
  if inB size next then
    match bget board next with
    | some p => (st.1, st.2.1, insert p st.2.2.1, st.2.2.2)
    | none =>
        if next ∈ st.1 then st
        else (insert next st.1, insert next st.2.1, st.2.2.1, st.2.2.2 ++ [next])
  else st

/-- The `while (queue.length > 0)` loop of the territory flood fill. -/
def terrLoop (board : Board) (size : Nat) :
    Nat → List Pos → Finset Pos → Finset Pos → Finset Player →
    Finset Pos × Finset Pos × Finset Player
  | 0, _, visited, region, border => (visited, region, border)
  | _ + 1, [], visited, region, border => (visited, region, border)
  | fuel + 1, curr :: rest, visited, region, border =>
      let st := (neighborsOf curr).foldl (terrVisit board size) (visited, region, border, rest)
      terrLoop board size fuel st.2.2.2 st.1 st.2.1 st.2.2.1

/-- The owner decision
`borderPlayers.size === 1 ? Array.from(borderPlayers)[0] : 'Neutral'`:
a set over the 2-valued `Player` has exactly one element iff it is `{Black}`
or `{White}`. -/
def ownerOfBorder (border : Finset Player) : TOwner :=
  if border = {Player.Black} then TOwner.ofPlayer Player.Black
  else if border = {Player.White} then TOwner.ofPlayer Player.White
  else TOwner.neutral

/-- The body of the `for (r) for (c)` loop of `analyzeTerritory`: skip
occupied or already-visited points, otherwise flood the region and record
its owner for every region point. State is `(territoryMap, visited)`; the
JS `Map.set` accumulation is modelled as function update. -/
def terrCell (board : Board) (size : Nat)
    (st : (Pos → Option TOwner) × Finset Pos) (pos : Pos) :
    (Pos → Option TOwner) × Finset Pos :=
  if bhas board pos ∨ pos ∈ st.2 then st
  else
    let r := terrLoop board size (4 * size * size + 1) [pos] (insert pos st.2) {pos} ∅
    let owner := ownerOfBorder r.2.2
    (fun q => if q ∈ r.2.1 then some owner else st.1 q, r.1)

/-- The row-major enumeration of all board points. -/
def allCells (size : Nat) : List Pos :=
  (List.range size).flatMap fun r : Nat =>
    (List.range size).map fun c : Nat => (⟨(r : Int), (c : Int)⟩ : Pos)

/-- `analyzeTerritory` (src/unnamed/part_000 lines 75-121), as the final
territory map. -/
def analyzeTerritory (board : Board) (size : Nat) : Pos → Option TOwner :=
  ((allCells size).foldl (terrCell board size) (fun _ => none, ∅)).1

/-- Connectivity through empty in-bounds points. -/
def EReaches (board : Board) (size : Nat) (p q : Pos) : Prop :=
  Relation.ReflTransGen
    (fun x y => adjacent x y ∧ inB size y ∧ bget board y = none) p q

/-- The region of `q` borders a stone of color `c`. -/
def BorderColor (board : Board) (size : Nat) (q : Pos) (c : Player) : Prop :=
  ∃ p x, EReaches board size q p ∧ x ∈ neighborsOf p ∧ inB size x ∧
    bget board x = some c

theorem ereaches_cases {board : Board} {size : Nat} {p q : Pos}
    (h : EReaches board size p q) :
    q = p ∨ (inB size q ∧ bget board q = none) := by
  induction h with
  | refl => exact Or.inl rfl
  | tail _ hstep _ => exact Or.inr ⟨hstep.2.1, hstep.2.2⟩

theorem ereaches_trans {board : Board} {size : Nat} {p q r : Pos}
    (h1 : EReaches board size p q) (h2 : EReaches board size q r) :
    EReaches board size p r :=
  Relation.ReflTransGen.trans h1 h2

theorem ereaches_symm {board : Board} {size : Nat} {p q : Pos}
    (hin : inB size p) (hempty : bget board p = none)
    (h : EReaches board size p q) : EReaches board size q p := by
  induction h with
  | refl => exact Relation.ReflTransGen.refl
  | tail hr hstep ih =>
      refine Relation.ReflTransGen.head ?_ ih
      rcases ereaches_cases hr with rfl | ⟨hin2, hempty2⟩
      · exact ⟨adjacent_symm hstep.1, hin, hempty⟩
      · exact ⟨adjacent_symm hstep.1, hin2, hempty2⟩

theorem borderColor_congr {board : Board} {size : Nat} {p q : Pos}
    (hin : inB size p) (hempty : bget board p = none)
    (h : EReaches board size p q) (c : Player) :
    BorderColor board size p c ↔ BorderColor board size q c := by
  constructor
  · rintro ⟨p2, x, hr, hx, hinx, hcx⟩
    exact ⟨p2, x, ereaches_trans (ereaches_symm hin hempty h) hr, hx, hinx, hcx⟩
  · rintro ⟨p2, x, hr, hx, hinx, hcx⟩
    exact ⟨p2, x, ereaches_trans h hr, hx, hinx, hcx⟩

theorem mem_allCells {size : Nat} {p : Pos} : p ∈ allCells size ↔ inB size p := by
  obtain ⟨pr, pc⟩ := p
  constructor
  · intro h
    obtain ⟨r, hr, hmem⟩ := List.mem_flatMap.mp h
    obtain ⟨c, hc, heq⟩ := List.mem_map.mp hmem
    rw [List.mem_range] at hr hc
    obtain ⟨h1, h2⟩ := Pos.mk.injEq .. ▸ heq
    unfold inB
    dsimp only
    omega
  · intro h
    unfold inB at h
    dsimp only at h
    obtain ⟨h1, h2, h3, h4⟩ := h
    refine List.mem_flatMap.mpr ⟨pr.toNat, List.mem_range.mpr (by omega), ?_⟩
    refine List.mem_map.mpr ⟨pc.toNat, List.mem_range.mpr (by omega), ?_⟩
    simp only [Pos.mk.injEq]
    constructor <;> omega

theorem terrVisit_not_inB {board : Board} {size : Nat}
    {st : Finset Pos × Finset Pos × Finset Player × List Pos} {x : Pos}
    (h : ¬ inB size x) : terrVisit board size st x = st := by
  simp [terrVisit, h]

theorem terrVisit_stone {board : Board} {size : Nat}
    {st : Finset Pos × Finset Pos × Finset Player × List Pos} {x : Pos}
    {c : Player} (h : inB size x) (hc : bget board x = some c) :
    terrVisit board size st x = (st.1, st.2.1, insert c st.2.2.1, st.2.2.2) := by
  simp [terrVisit, h, hc]

theorem terrVisit_seen {board : Board} {size : Nat}
    {st : Finset Pos × Finset Pos × Finset Player × List Pos} {x : Pos}
    (h : inB size x) (hc : bget board x = none) (hm : x ∈ st.1) :
    terrVisit board size st x = st := by
  simp [terrVisit, h, hc, hm]

theorem terrVisit_new {board : Board} {size : Nat}
    {st : Finset Pos × Finset Pos × Finset Player × List Pos} {x : Pos}
    (h : inB size x) (hc : bget board x = none) (hm : x ∉ st.1) :
    terrVisit board size st x =
      (insert x st.1, insert x st.2.1, st.2.2.1, st.2.2.2 ++ [x]) := by
  simp [terrVisit, h, hc, hm]

/-- The in-bounds stone colors seen among a list of neighbours. -/
def borderAdd (board : Board) (size : Nat) (ns : List Pos) : List Player :=
  ns.filterMap fun x => if inB size x then bget board x else none

/-- Full effect of classifying a list of neighbours in the territory flood
fill, provided the visited set and the region agree on the relevant empty
points. -/
theorem foldl_terrVisit_spec (board : Board) (size : Nat) :
    ∀ (ns : List Pos) (visited region : Finset Pos) (border : Finset Player)
      (queue : List Pos),
    (∀ x ∈ ns, inB size x → bget board x = none → (x ∈ visited ↔ x ∈ region)) →
    ∃ news : List Pos,
      ns.foldl (terrVisit board size) (visited, region, border, queue) =
        (visited ∪ news.toFinset, region ∪ news.toFinset,
         border ∪ (borderAdd board size ns).toFinset, queue ++ news) ∧
      news.Nodup ∧
      (∀ p ∈ news, p ∉ region ∧ p ∈ ns ∧ inB size p ∧ bget board p = none) ∧
      (∀ p ∈ ns, inB size p → bget board p = none → p ∈ region ∨ p ∈ news) := by
  intro ns
  induction ns with
  | nil =>
      intro visited region border queue hvr
      exact ⟨[], by simp [borderAdd], by simp, by simp, by simp⟩
  | cons x tail ih =>
      intro visited region border queue hvr
      have hvrtail : ∀ y ∈ tail, inB size y → bget board y = none →
          (y ∈ visited ↔ y ∈ region) :=
        fun y hy => hvr y (List.mem_cons_of_mem _ hy)
      by_cases hin : inB size x
      · cases hc : bget board x with
        | some c =>
            obtain ⟨news, heq, hnd, hprop, hcomp⟩ := ih visited region
              (insert c border) queue hvrtail
            refine ⟨news, ?_, hnd, ?_, ?_⟩
            · rw [List.foldl_cons, terrVisit_stone hin hc]
              dsimp only
              rw [heq]
              have hba : borderAdd board size (x :: tail) =
                  c :: borderAdd board size tail := by
                simp [borderAdd, List.filterMap_cons, hin, hc]
              rw [hba]
              have : insert c border ∪ (borderAdd board size tail).toFinset =
                  border ∪ (c :: borderAdd board size tail).toFinset := by
                ext y
                simp only [Finset.mem_union, Finset.mem_insert, List.mem_toFinset,
                  List.mem_cons]
                tauto
              rw [this]
            · intro p hp
              obtain ⟨h1, h2, h3, h4⟩ := hprop p hp
              exact ⟨h1, List.mem_cons_of_mem _ h2, h3, h4⟩
            · intro p hp hinp hcp
              rcases List.mem_cons.mp hp with rfl | hp2
              · rw [hc] at hcp; exact absurd hcp (by simp)
              · exact hcomp p hp2 hinp hcp
        | none =>
            have hxvr := hvr x (List.mem_cons_self _ _) hin hc
            by_cases hm : x ∈ visited
            · obtain ⟨news, heq, hnd, hprop, hcomp⟩ := ih visited region border
                queue hvrtail
              refine ⟨news, ?_, hnd, ?_, ?_⟩
              · rw [List.foldl_cons, terrVisit_seen hin hc hm, heq]
                have hba : borderAdd board size (x :: tail) =
                    borderAdd board size tail := by
                  simp [borderAdd, List.filterMap_cons, hin, hc]
                rw [hba]
              · intro p hp
                obtain ⟨h1, h2, h3, h4⟩ := hprop p hp
                exact ⟨h1, List.mem_cons_of_mem _ h2, h3, h4⟩
              · intro p hp hinp hcp
                rcases List.mem_cons.mp hp with rfl | hp2
                · exact Or.inl (hxvr.mp hm)
                · exact hcomp p hp2 hinp hcp
            · have hxreg : x ∉ region := fun hh => hm (hxvr.mpr hh)
              have hvrtail2 : ∀ y ∈ tail, inB size y → bget board y = none →
                  (y ∈ insert x visited ↔ y ∈ insert x region) := by
                intro y hy hiny hcy
                rw [Finset.mem_insert, Finset.mem_insert, hvrtail y hy hiny hcy]
              obtain ⟨news, heq, hnd, hprop, hcomp⟩ := ih (insert x visited)
                (insert x region) border (queue ++ [x]) hvrtail2
              refine ⟨x :: news, ?_, ?_, ?_, ?_⟩
              · rw [List.foldl_cons, terrVisit_new hin hc hm]
                dsimp only
                rw [heq]
                have hba : borderAdd board size (x :: tail) =
                    borderAdd board size tail := by
                  simp [borderAdd, List.filterMap_cons, hin, hc]
                rw [hba]
                have h1 : visited ∪ (x :: news).toFinset =
                    insert x visited ∪ news.toFinset := by
                  ext y
                  simp only [Finset.mem_union, List.mem_toFinset, List.mem_cons,
                    Finset.mem_insert]
                  tauto
                have h2 : region ∪ (x :: news).toFinset =
                    insert x region ∪ news.toFinset := by
                  ext y
                  simp only [Finset.mem_union, List.mem_toFinset, List.mem_cons,
                    Finset.mem_insert]
                  tauto
                have h3 : queue ++ x :: news = (queue ++ [x]) ++ news := by simp
                rw [h1, h2, h3]
              · refine List.nodup_cons.mpr ⟨?_, hnd⟩
                intro hx
                exact (hprop x hx).1 (Finset.mem_insert_self x region)
              · intro p hp
                rcases List.mem_cons.mp hp with rfl | hp2
                · exact ⟨hxreg, List.mem_cons_self p tail, hin, hc⟩
                · obtain ⟨h1, h2, h3, h4⟩ := hprop p hp2
                  exact ⟨fun hmem => h1 (Finset.mem_insert_of_mem hmem),
                    List.mem_cons_of_mem _ h2, h3, h4⟩
              · intro p hp hinp hcp
                rcases List.mem_cons.mp hp with rfl | hp2
                · exact Or.inr (List.mem_cons_self p news)
                · rcases hcomp p hp2 hinp hcp with hmem | hmem
                  · rcases Finset.mem_insert.mp hmem with rfl | hmem2
                    · exact Or.inr (List.mem_cons_self p news)
                    · exact Or.inl hmem2
                  · exact Or.inr (List.mem_cons_of_mem _ hmem)
      · obtain ⟨news, heq, hnd, hprop, hcomp⟩ := ih visited region border queue hvrtail
        refine ⟨news, ?_, hnd, ?_, ?_⟩
        · rw [List.foldl_cons, terrVisit_not_inB hin, heq]
          have hba : borderAdd board size (x :: tail) = borderAdd board size tail := by
            simp [borderAdd, List.filterMap_cons, hin]
          rw [hba]
        · intro p hp
          obtain ⟨h1, h2, h3, h4⟩ := hprop p hp
          exact ⟨h1, List.mem_cons_of_mem _ h2, h3, h4⟩
        · intro p hp hinp hcp
          rcases List.mem_cons.mp hp with rfl | hp2
          · exact absurd hinp hin
          · exact hcomp p hp2 hinp hcp

/-- Invariant of the territory flood-fill loop: `V0` is the set of points
already visited before this region started. -/
structure TerrInv (board : Board) (size : Nat) (start : Pos) (V0 : Finset Pos)
    (queue : List Pos) (visited region : Finset Pos) (border : Finset Player) :
    Prop where
  vis_eq : visited = V0 ∪ region
  start_mem : start ∈ region
  region_ok : ∀ p ∈ region,
    inB size p ∧ bget board p = none ∧ EReaches board size start p
  queue_sub : ∀ p ∈ queue, p ∈ region
  queue_nodup : queue.Nodup
  closed : ∀ p ∈ region, p ∉ queue →
    ∀ q ∈ neighborsOf p, inB size q → bget board q = none → q ∈ region
  border_sound : ∀ c ∈ border, ∃ p x, p ∈ region ∧ p ∉ queue ∧
    x ∈ neighborsOf p ∧ inB size x ∧ bget board x = some c
  border_complete : ∀ p ∈ region, p ∉ queue →
    ∀ x ∈ neighborsOf p, inB size x → ∀ c, bget board x = some c → c ∈ border

theorem terrLoop_post (board : Board) (size : Nat) (start : Pos) (V0 : Finset Pos)
    (hdisj : ∀ x, EReaches board size start x → x ∉ V0) :
    ∀ (fuel : Nat) (queue : List Pos) (visited region : Finset Pos)
      (border : Finset Player),
    TerrInv board size start V0 queue visited region border →
    4 * (size * size - region.card) + queue.length ≤ fuel →
    TerrInv board size start V0 []
      (terrLoop board size fuel queue visited region border).1
      (terrLoop board size fuel queue visited region border).2.1
      (terrLoop board size fuel queue visited region border).2.2 := by
  intro fuel
  induction fuel with
  | zero =>
      intro queue visited region border hinv hfuel
      cases queue with
      | nil => simpa [terrLoop] using hinv
      | cons curr rest => simp at hfuel
  | succ fuel ih =>
      intro queue visited region border hinv hfuel
      cases queue with
      | nil => simpa [terrLoop] using hinv
      | cons curr rest =>
          have hcur_reg : curr ∈ region := hinv.queue_sub curr (List.mem_cons_self _ _)
          have hcur_reach : EReaches board size start curr :=
            (hinv.region_ok curr hcur_reg).2.2
          have hvr : ∀ x ∈ neighborsOf curr, inB size x → bget board x = none →
              (x ∈ visited ↔ x ∈ region) := by
            intro x hx hinx hcx
            have hxreach : EReaches board size start x :=
              Relation.ReflTransGen.tail hcur_reach ⟨hx, hinx, hcx⟩
            rw [hinv.vis_eq, Finset.mem_union]
            have : x ∉ V0 := hdisj x hxreach
            constructor
            · intro hh
              rcases hh with hh | hh
              · exact absurd hh this
              · exact hh
            · intro hh; exact Or.inr hh
          obtain ⟨news, heq, hnd, hprop, hcomp⟩ :=
            foldl_terrVisit_spec board size (neighborsOf curr) visited region
              border rest hvr
          set R1 := region ∪ news.toFinset with hR1
          set V1 := visited ∪ news.toFinset with hV1
          set B1 := border ∪ (borderAdd board size (neighborsOf curr)).toFinset with hB1
          set Q1 := rest ++ news with hQ1
          have hrest_nd : rest.Nodup := (List.nodup_cons.mp hinv.queue_nodup).2
          have hcurr_rest : curr ∉ rest := (List.nodup_cons.mp hinv.queue_nodup).1
          have hnews_reg : ∀ p ∈ news, p ∉ region := fun p hp => (hprop p hp).1
          have hcurr_news : curr ∉ news := fun h => hnews_reg curr h hcur_reg
          have hcurr_Q1 : curr ∉ Q1 := by
            intro h
            rcases List.mem_append.mp h with h | h
            · exact hcurr_rest h
            · exact hcurr_news h
          have hmemR1 : ∀ p, p ∈ R1 ↔ p ∈ region ∨ p ∈ news := by
            intro p; simp [hR1]
          have hnotQ1 : ∀ p, p ∉ Q1 → p ∉ rest ∧ p ∉ news := by
            intro p hp
            constructor <;> intro h <;> exact hp (List.mem_append.mpr (by tauto))
          have hinv1 : TerrInv board size start V0 Q1 V1 R1 B1 := by
            refine ⟨?_, ?_, ?_, ?_, ?_, ?_, ?_, ?_⟩
            · rw [hV1, hR1, hinv.vis_eq, Finset.union_assoc]
            · exact Finset.mem_union_left _ hinv.start_mem
            · intro p hp
              rcases (hmemR1 p).mp hp with h | h
              · exact hinv.region_ok p h
              · obtain ⟨_, hmem, hinb, hcol⟩ := hprop p h
                exact ⟨hinb, hcol,
                  Relation.ReflTransGen.tail hcur_reach ⟨hmem, hinb, hcol⟩⟩
            · intro p hp
              rcases List.mem_append.mp hp with h | h
              · exact (hmemR1 p).mpr
                  (Or.inl (hinv.queue_sub p (List.mem_cons_of_mem _ h)))
              · exact (hmemR1 p).mpr (Or.inr h)
            · refine List.Nodup.append hrest_nd hnd ?_
              intro a ha hna
              exact hnews_reg a hna (hinv.queue_sub a (List.mem_cons_of_mem _ ha))
            · intro p hp hpq q hq hinq hcolq
              obtain ⟨hprest, hpnews⟩ := hnotQ1 p hpq
              rcases (hmemR1 p).mp hp with hpreg | hpnews2
              · by_cases hpc : p = curr
                · subst hpc
                  rcases hcomp q hq hinq hcolq with h | h
                  · exact (hmemR1 q).mpr (Or.inl h)
                  · exact (hmemR1 q).mpr (Or.inr h)
                · have hpnotq : p ∉ curr :: rest := by
                    intro h
                    rcases List.mem_cons.mp h with h | h
                    · exact hpc h
                    · exact hprest h
                  exact (hmemR1 q).mpr
                    (Or.inl (hinv.closed p hpreg hpnotq q hq hinq hcolq))
              · exact absurd (List.mem_append.mpr (Or.inr hpnews2)) hpq
            · intro c hc
              rcases Finset.mem_union.mp hc with h | h
              · obtain ⟨p, x, hpreg, hpq, hxn, hinx, hcx⟩ := hinv.border_sound c h
                have hpnotrest : p ∉ rest := fun hh => hpq (List.mem_cons_of_mem _ hh)
                have hpnotnews : p ∉ news := fun hh => hnews_reg p hh hpreg
                refine ⟨p, x, (hmemR1 p).mpr (Or.inl hpreg), ?_, hxn, hinx, hcx⟩
                intro hh
                rcases List.mem_append.mp hh with hh | hh
                · exact hpnotrest hh
                · exact hpnotnews hh
              · rw [List.mem_toFinset] at h
                obtain ⟨x, hx, hcx⟩ := List.mem_filterMap.mp h
                by_cases hinx : inB size x
                · rw [if_pos hinx] at hcx
                  exact ⟨curr, x, (hmemR1 curr).mpr (Or.inl hcur_reg), hcurr_Q1,
                    hx, hinx, hcx⟩
                · rw [if_neg hinx] at hcx
                  exact absurd hcx (by simp)
            · intro p hp hpq x hx hinx c hcx
              obtain ⟨hprest, hpnews⟩ := hnotQ1 p hpq
              rcases (hmemR1 p).mp hp with hpreg | hpnews2
              · by_cases hpc : p = curr
                · subst hpc
                  refine Finset.mem_union_right _ ?_
                  rw [List.mem_toFinset]
                  refine List.mem_filterMap.mpr ⟨x, hx, ?_⟩
                  rw [if_pos hinx, hcx]
                · have hpnotq : p ∉ curr :: rest := by
                    intro h
                    rcases List.mem_cons.mp h with h | h
                    · exact hpc h
                    · exact hprest h
                  exact Finset.mem_union_left _
                    (hinv.border_complete p hpreg hpnotq x hx hinx c hcx)
              · exact absurd (List.mem_append.mpr (Or.inr hpnews2)) hpq
          have hstep : terrLoop board size (fuel + 1) (curr :: rest) visited region
              border = terrLoop board size fuel Q1 V1 R1 B1 := by
            simp only [terrLoop]
            rw [heq]
          rw [hstep]
          refine ih Q1 V1 R1 B1 hinv1 ?_
          have hcard_news : news.toFinset.card = news.length :=
            List.toFinset_card_of_nodup hnd
          have hdisj2 : Disjoint region news.toFinset := by
            rw [Finset.disjoint_right]
            intro a ha
            exact hnews_reg a (List.mem_toFinset.mp ha)
          have hcardR1 : R1.card = region.card + news.length := by
            rw [hR1, Finset.card_union_of_disjoint hdisj2, hcard_news]
          have hR1sub : R1 ⊆ inBFinset size := by
            intro p hp
            exact mem_inBFinset.mpr (hinv1.region_ok p hp).1
          have hR1le : R1.card ≤ size * size := by
            have := Finset.card_le_card hR1sub
            rwa [card_inBFinset] at this
          have hQ1len : Q1.length = rest.length + news.length := by
            simp [hQ1]
          simp only [List.length_cons] at hfuel
          omega

/-- Final characterization of one territory flood fill: it computes exactly
the empty region of the start and the exact set of bordering stone colors. -/
theorem terrLoop_spec (board : Board) (size : Nat) (start : Pos) (V0 : Finset Pos)
    (hin : inB size start) (hempty : bget board start = none)
    (hdisj : ∀ x, EReaches board size start x → x ∉ V0) :
    (terrLoop board size (4 * size * size + 1) [start] (insert start V0)
        {start} ∅).1 =
      V0 ∪ (terrLoop board size (4 * size * size + 1) [start] (insert start V0)
        {start} ∅).2.1 ∧
    (∀ p, p ∈ (terrLoop board size (4 * size * size + 1) [start] (insert start V0)
        {start} ∅).2.1 ↔ EReaches board size start p) ∧
    (∀ c, c ∈ (terrLoop board size (4 * size * size + 1) [start] (insert start V0)
        {start} ∅).2.2 ↔ BorderColor board size start c) := by
  have hinv0 : TerrInv board size start V0 [start] (insert start V0) {start} ∅ := by
    refine ⟨?_, Finset.mem_singleton_self _, ?_, ?_, List.nodup_singleton _, ?_, ?_, ?_⟩
    · ext y
      simp only [Finset.mem_insert, Finset.mem_union, Finset.mem_singleton]
      tauto
    · intro p hp
      rw [Finset.mem_singleton] at hp
      subst hp
      exact ⟨hin, hempty, Relation.ReflTransGen.refl⟩
    · intro p hp
      rw [Finset.mem_singleton]
      simpa using hp
    · intro p hp hpq
      rw [Finset.mem_singleton] at hp
      subst hp
      exact absurd (List.mem_singleton_self _) hpq
    · intro c hc
      exact absurd hc (Finset.not_mem_empty _)
    · intro p hp hpq
      rw [Finset.mem_singleton] at hp
      subst hp
      exact absurd (List.mem_singleton_self _) hpq
  have hone : 1 ≤ size * size := by
    have h1 : start ∈ inBFinset size := mem_inBFinset.mpr hin
    have h2 : 0 < (inBFinset size).card := Finset.card_pos.mpr ⟨start, h1⟩
    rwa [card_inBFinset] at h2
  have hfuel : 4 * (size * size - ({start} : Finset Pos).card) + [start].length ≤
      4 * size * size + 1 := by
    rw [Finset.card_singleton, List.length_singleton]
    have h4 : 4 * size * size = 4 * (size * size) := by ring
    rw [h4]
    generalize size * size = A
    omega
  have hpost := terrLoop_post board size start V0 hdisj (4 * size * size + 1)
    [start] (insert start V0) {start} ∅ hinv0 hfuel
  have hregion : ∀ p, p ∈ (terrLoop board size (4 * size * size + 1) [start]
      (insert start V0) {start} ∅).2.1 ↔ EReaches board size start p := by
    intro p
    constructor
    · intro hp
      exact (hpost.region_ok p hp).2.2
    · intro hr
      induction hr with
      | refl => exact hpost.start_mem
      | tail hr2 hstep ih =>
          exact hpost.closed _ ih (List.not_mem_nil _) _ hstep.1 hstep.2.1 hstep.2.2
  refine ⟨hpost.vis_eq, hregion, ?_⟩
  intro c
  constructor
  · intro hc
    obtain ⟨p, x, hpreg, _, hxn, hinx, hcx⟩ := hpost.border_sound c hc
    exact ⟨p, x, (hregion p).mp hpreg, hxn, hinx, hcx⟩
  · rintro ⟨p, x, hr, hxn, hinx, hcx⟩
    exact hpost.border_complete p ((hregion p).mpr hr) (List.not_mem_nil _)
      x hxn hinx c hcx

/-- What it means for `o` to be the correct owner of the empty region of
`q`: it is a color exactly when that color is the unique border color. -/
def OwnerSpec (board : Board) (size : Nat) (q : Pos) (o : TOwner) : Prop :=
  ∀ c, o = TOwner.ofPlayer c ↔
    (BorderColor board size q c ∧ ∀ d, BorderColor board size q d → d = c)

theorem ownerSpec_unique {board : Board} {size : Nat} {q : Pos} {o1 o2 : TOwner}
    (h1 : OwnerSpec board size q o1) (h2 : OwnerSpec board size q o2) : o1 = o2 := by
  cases o1 with
  | ofPlayer c =>
      have := (h1 c).mp rfl
      exact ((h2 c).mpr this).symm
  | neutral =>
      cases o2 with
      | ofPlayer c =>
          have := (h2 c).mp rfl
          exact absurd ((h1 c).mpr this) (by simp)
      | neutral => rfl

theorem ownerSpec_congr {board : Board} {size : Nat} {p q : Pos} {o : TOwner}
    (hin : inB size p) (hempty : bget board p = none)
    (h : EReaches board size p q) :
    OwnerSpec board size p o ↔ OwnerSpec board size q o := by
  unfold OwnerSpec
  constructor
  · intro hs c
    rw [hs c]
    constructor
    · rintro ⟨hbc, huniq⟩
      exact ⟨(borderColor_congr hin hempty h c).mp hbc,
        fun d hd => huniq d ((borderColor_congr hin hempty h d).mpr hd)⟩
    · rintro ⟨hbc, huniq⟩
      exact ⟨(borderColor_congr hin hempty h c).mpr hbc,
        fun d hd => huniq d ((borderColor_congr hin hempty h d).mp hd)⟩
  · intro hs c
    rw [hs c]
    constructor
    · rintro ⟨hbc, huniq⟩
      exact ⟨(borderColor_congr hin hempty h c).mpr hbc,
        fun d hd => huniq d ((borderColor_congr hin hempty h d).mp hd)⟩
    · rintro ⟨hbc, huniq⟩
      exact ⟨(borderColor_congr hin hempty h c).mp hbc,
        fun d hd => huniq d ((borderColor_congr hin hempty h d).mpr hd)⟩

/-- The source's `size === 1` owner pick satisfies `OwnerSpec` when the
border set is exactly the set of bordering colors. -/
theorem ownerOfBorder_spec {board : Board} {size : Nat} {start : Pos}
    {border : Finset Player}
    (hborder : ∀ c, c ∈ border ↔ BorderColor board size start c) :
    OwnerSpec board size start (ownerOfBorder border) := by
  intro c
  unfold ownerOfBorder
  split_ifs with h1 h2
  · cases c with
    | Black =>
        simp only [true_iff]
        constructor
        · rw [← hborder, h1]
          exact Finset.mem_singleton_self _
        · intro d hd
          rw [← hborder, h1, Finset.mem_singleton] at hd
          exact hd
    | White =>
        simp only [TOwner.ofPlayer.injEq]
        constructor
        · intro hh
          exact absurd hh (by simp)
        · rintro ⟨hbc, _⟩
          rw [← hborder, h1, Finset.mem_singleton] at hbc
          exact hbc.symm
  · cases c with
    | White =>
        simp only [true_iff]
        constructor
        · rw [← hborder, h2]
          exact Finset.mem_singleton_self _
        · intro d hd
          rw [← hborder, h2, Finset.mem_singleton] at hd
          exact hd
    | Black =>
        simp only [TOwner.ofPlayer.injEq]
        constructor
        · intro hh
          exact absurd hh (by simp)
        · rintro ⟨hbc, _⟩
          rw [← hborder, h2, Finset.mem_singleton] at hbc
          exact hbc.symm
  · constructor
    · intro hh
      exact absurd hh (by simp)
    · rintro ⟨hbc, huniq⟩
      exfalso
      have hsing : border = {c} := by
        ext d
        rw [Finset.mem_singleton]
        constructor
        · intro hd
          exact huniq d ((hborder d).mp hd)
        · intro hd
          subst hd
          exact (hborder d).mpr hbc
      cases c with
      | Black => exact h1 hsing
      | White => exact h2 hsing

/-- Invariant of the outer loop of `analyzeTerritory`. -/
structure OuterInv (board : Board) (size : Nat) (tmap : Pos → Option TOwner)
    (visited : Finset Pos) : Prop where
  vis_ok : ∀ q ∈ visited, inB size q ∧ bget board q = none
  vis_closed : ∀ q ∈ visited, ∀ x, EReaches board size q x → x ∈ visited
  tmap_vis : ∀ q ∈ visited, ∃ o, tmap q = some o ∧ OwnerSpec board size q o

theorem terrCell_skip {board : Board} {size : Nat}
    {st : (Pos → Option TOwner) × Finset Pos} {pos : Pos}
    (h : bhas board pos = true ∨ pos ∈ st.2) :
    terrCell board size st pos = st := by
  rcases h with h | h <;> simp [terrCell, h]

theorem terrCell_go {board : Board} {size : Nat}
    {st : (Pos → Option TOwner) × Finset Pos} {pos : Pos}
    (h1 : bhas board pos = false) (h2 : pos ∉ st.2) :
    terrCell board size st pos =
      ((fun q => if q ∈ (terrLoop board size (4 * size * size + 1) [pos]
            (insert pos st.2) {pos} ∅).2.1 then
          some (ownerOfBorder (terrLoop board size (4 * size * size + 1) [pos]
            (insert pos st.2) {pos} ∅).2.2)
        else st.1 q),
       (terrLoop board size (4 * size * size + 1) [pos]
         (insert pos st.2) {pos} ∅).1) := by
  simp [terrCell, h1, h2]

/-- One outer-loop step preserves the invariant, only grows the visited set,
and visits the processed point when it is empty. -/
theorem terrCell_step (board : Board) (size : Nat)
    (st : (Pos → Option TOwner) × Finset Pos) (pos : Pos) (hpos : inB size pos)
    (hinv : OuterInv board size st.1 st.2) :
    OuterInv board size (terrCell board size st pos).1 (terrCell board size st pos).2 ∧
    st.2 ⊆ (terrCell board size st pos).2 ∧
    (bget board pos = none → pos ∈ (terrCell board size st pos).2) := by
  by_cases hskip : bhas board pos = true ∨ pos ∈ st.2
  · rw [terrCell_skip hskip]
    refine ⟨hinv, Finset.Subset.refl _, ?_⟩
    intro hempty
    rcases hskip with h | h
    · rw [bhas_eq_true_iff] at h
      obtain ⟨c, hc⟩ := h
      rw [hempty] at hc
      exact absurd hc (by simp)
    · exact h
  · push_neg at hskip
    obtain ⟨hstone0, hvis⟩ := hskip
    have hstone : bhas board pos = false := by
      rw [← Bool.not_eq_true]
      exact hstone0
    have hempty : bget board pos = none := (bhas_eq_false_iff board pos).mp hstone
    have hdisj : ∀ x, EReaches board size pos x → x ∉ st.2 := by
      intro x hx hxv
      exact hvis (hinv.vis_closed x hxv pos (ereaches_symm hpos hempty hx))
    obtain ⟨hvis_eq, hregion, hborder⟩ :=
      terrLoop_spec board size pos st.2 hpos hempty hdisj
    have hospec : OwnerSpec board size pos
        (ownerOfBorder (terrLoop board size (4 * size * size + 1) [pos]
          (insert pos st.2) {pos} ∅).2.2) :=
      ownerOfBorder_spec hborder
    rw [terrCell_go hstone hvis]
    dsimp only
    rw [hvis_eq]
    refine ⟨⟨?_, ?_, ?_⟩, ?_, ?_⟩
    · intro q hq
      rcases Finset.mem_union.mp hq with hq | hq
      · exact hinv.vis_ok q hq
      · have hr := (hregion q).mp hq
        rcases ereaches_cases hr with rfl | ⟨h1, h2⟩
        · exact ⟨hpos, hempty⟩
        · exact ⟨h1, h2⟩
    · intro q hq x hx
      rcases Finset.mem_union.mp hq with hq | hq
      · exact Finset.mem_union_left _ (hinv.vis_closed q hq x hx)
      · refine Finset.mem_union_right _ ?_
        exact (hregion x).mpr (ereaches_trans ((hregion q).mp hq) hx)
    · intro q hq
      rcases Finset.mem_union.mp hq with hq | hq
      · have hqnotreg : q ∉ (terrLoop board size (4 * size * size + 1) [pos]
            (insert pos st.2) {pos} ∅).2.1 := by
          intro hh
          exact hdisj q ((hregion q).mp hh) hq
        obtain ⟨o, ho, hos⟩ := hinv.tmap_vis q hq
        exact ⟨o, by rw [if_neg hqnotreg]; exact ho, hos⟩
      · refine ⟨ownerOfBorder (terrLoop board size (4 * size * size + 1) [pos]
          (insert pos st.2) {pos} ∅).2.2, by rw [if_pos hq], ?_⟩
        exact (ownerSpec_congr hpos hempty ((hregion q).mp hq)).mp hospec
    · intro q hq
      exact Finset.mem_union_left _ hq
    · intro _
      exact Finset.mem_union_right _
        ((hregion pos).mpr Relation.ReflTransGen.refl)

/-- Folding the outer loop over any list of in-bounds cells. -/
theorem terr_fold_spec (board : Board) (size : Nat) :
    ∀ (cells : List Pos) (st : (Pos → Option TOwner) × Finset Pos),
    (∀ p ∈ cells, inB size p) →
    OuterInv board size st.1 st.2 →
    OuterInv board size (cells.foldl (terrCell board size) st).1
        (cells.foldl (terrCell board size) st).2 ∧
      st.2 ⊆ (cells.foldl (terrCell board size) st).2 ∧
      (∀ p ∈ cells, bget board p = none →
        p ∈ (cells.foldl (terrCell board size) st).2) := by
  intro cells
  induction cells with
  | nil =>
      intro st hin hinv
      exact ⟨hinv, Finset.Subset.refl _, by simp⟩
  | cons pos tail ih =>
      intro st hin hinv
      have hpos : inB size pos := hin pos (List.mem_cons_self _ _)
      have hintail : ∀ p ∈ tail, inB size p :=
        fun p hp => hin p (List.mem_cons_of_mem _ hp)
      obtain ⟨hinv1, hsub1, hposmem⟩ := terrCell_step board size st pos hpos hinv
      rw [List.foldl_cons]
      obtain ⟨hinv2, hsub2, hcov2⟩ := ih (terrCell board size st pos) hintail hinv1
      refine ⟨hinv2, Finset.Subset.trans hsub1 hsub2, ?_⟩
      intro p hp hpe
      rcases List.mem_cons.mp hp with rfl | hp2
      · exact hsub2 (hposmem hpe)
      · exact hcov2 p hp2 hpe

/-- The final characterization of `analyzeTerritory` at an empty point. -/
theorem analyzeTerritory_spec (board : Board) (size : Nat) (p : Pos)
    (hin : inB size p) (hempty : bget board p = none) :
    ∃ o, analyzeTerritory board size p = some o ∧ OwnerSpec board size p o := by
  have hinv0 : OuterInv board size (fun _ => none) ∅ := by
    refine ⟨?_, ?_, ?_⟩ <;> intro q hq <;> exact absurd hq (Finset.not_mem_empty q)
  obtain ⟨hinv, _, hcov⟩ := terr_fold_spec board size (allCells size)
    ((fun _ => none), ∅) (fun q hq => mem_allCells.mp hq) hinv0
  have hpvis := hcov p (mem_allCells.mpr hin) hempty
  exact hinv.tmap_vis p hpvis

/-! ## Claim C7 -/

/-- C7: `analyzeTerritory` assigns an owner to every in-bounds empty point;
the owner is constant on each maximal 4-connected empty region; it is the
color `c` exactly when the region borders at least one stone and every stone
bordering the region has color `c`, and neutral otherwise. -/
theorem c7_territory (board : Board) (size : Nat) (p : Pos)
    (hin : inB size p) (hempty : bget board p = none) :
    ∃ o, analyzeTerritory board size p = some o ∧
      (∀ q, EReaches board size p q → analyzeTerritory board size q = some o) ∧
      (∀ c, o = TOwner.ofPlayer c ↔
        (BorderColor board size p c ∧ ∀ d, BorderColor board size p d → d = c)) ∧
      (o = TOwner.neutral ↔
        ∀ c, ¬ (BorderColor board size p c ∧
          ∀ d, BorderColor board size p d → d = c)) := by
  obtain ⟨o, ho, hos⟩ := analyzeTerritory_spec board size p hin hempty
  refine ⟨o, ho, ?_, hos, ?_⟩
  · intro q hq
    rcases ereaches_cases hq with rfl | ⟨hinq, hemptyq⟩
    · exact ho
    · obtain ⟨o2, ho2, hos2⟩ := analyzeTerritory_spec board size q hinq hemptyq
      have : o2 = o :=
        ownerSpec_unique hos2 ((ownerSpec_congr hin hempty hq).mp hos)
      rw [ho2, this]
  · cases o with
    | ofPlayer c =>
        simp only [reduceCtorEq, false_iff, not_forall]
        exact ⟨c, not_not_intro ((hos c).mp rfl)⟩
    | neutral =>
        simp only [true_iff]
        intro c hc
        exact absurd ((hos c).mpr hc) (by simp)

/-- C7 witness: the theorem at the center of a 3×3 empty region fully
bordered by Black stones, together with the claim's concrete scenario: the
all-Black border attributes the region to Black, and recoloring one border
stone White flips the attribution to neutral. -/
theorem c7_witness :
    (inB 5 (Pos.mk 2 2) ∧
      bget [(⟨0, 1⟩, Player.Black), (⟨0, 2⟩, Player.Black), (⟨0, 3⟩, Player.Black),
        (⟨4, 1⟩, Player.Black), (⟨4, 2⟩, Player.Black), (⟨4, 3⟩, Player.Black),
        (⟨1, 0⟩, Player.Black), (⟨2, 0⟩, Player.Black), (⟨3, 0⟩, Player.Black),
        (⟨1, 4⟩, Player.Black), (⟨2, 4⟩, Player.Black), (⟨3, 4⟩, Player.Black)]
        (Pos.mk 2 2) = none) ∧
    (∃ o, analyzeTerritory
        [(⟨0, 1⟩, Player.Black), (⟨0, 2⟩, Player.Black), (⟨0, 3⟩, Player.Black),
         (⟨4, 1⟩, Player.Black), (⟨4, 2⟩, Player.Black), (⟨4, 3⟩, Player.Black),
         (⟨1, 0⟩, Player.Black), (⟨2, 0⟩, Player.Black), (⟨3, 0⟩, Player.Black),
         (⟨1, 4⟩, Player.Black), (⟨2, 4⟩, Player.Black), (⟨3, 4⟩, Player.Black)]
        5 (Pos.mk 2 2) = some o) ∧
    analyzeTerritory
        [(⟨0, 1⟩, Player.Black), (⟨0, 2⟩, Player.Black), (⟨0, 3⟩, Player.Black),
         (⟨4, 1⟩, Player.Black), (⟨4, 2⟩, Player.Black), (⟨4, 3⟩, Player.Black),
         (⟨1, 0⟩, Player.Black), (⟨2, 0⟩, Player.Black), (⟨3, 0⟩, Player.Black),
         (⟨1, 4⟩, Player.Black), (⟨2, 4⟩, Player.Black), (⟨3, 4⟩, Player.Black)]
        5 (Pos.mk 2 2) = some (TOwner.ofPlayer Player.Black) ∧
    analyzeTerritory
        [(⟨0, 1⟩, Player.Black), (⟨0, 2⟩, Player.White), (⟨0, 3⟩, Player.Black),
         (⟨4, 1⟩, Player.Black), (⟨4, 2⟩, Player.Black), (⟨4, 3⟩, Player.Black),
         (⟨1, 0⟩, Player.Black), (⟨2, 0⟩, Player.Black), (⟨3, 0⟩, Player.Black),
         (⟨1, 4⟩, Player.Black), (⟨2, 4⟩, Player.Black), (⟨3, 4⟩, Player.Black)]
        5 (Pos.mk 2 2) = some TOwner.neutral :=
  ⟨⟨by decide, by decide⟩,
    (c7_territory
      [(⟨0, 1⟩, Player.Black), (⟨0, 2⟩, Player.Black), (⟨0, 3⟩, Player.Black),
       (⟨4, 1⟩, Player.Black), (⟨4, 2⟩, Player.Black), (⟨4, 3⟩, Player.Black),
       (⟨1, 0⟩, Player.Black), (⟨2, 0⟩, Player.Black), (⟨3, 0⟩, Player.Black),
       (⟨1, 4⟩, Player.Black), (⟨2, 4⟩, Player.Black), (⟨3, 4⟩, Player.Black)]
      5 ⟨2, 2⟩ (by decide) (by decide)).elim
      (fun o ho => ⟨o, ho.1⟩),
    by decide, by decide⟩

/-! ## Opening books (src/unnamed/part_001) -/

/-- `OpeningBook { name, size, moves }`. -/
structure OpeningBook where
  name : String
  size : Nat
  moves : List Pos
deriving DecidableEq

/-- The helper `m(row, col)`. -/
def m (row col : Int) : Pos := ⟨row, col⟩

/-- `BASE_BOOKS` (src/unnamed/part_001 lines 13-107), verbatim. -/
def BASE_BOOKS : List OpeningBook := [
  ⟨"9路-天元流", 9, [m 4 4, m 2 6, m 6 2, m 6 6, m 2 2]⟩,
  ⟨"9路-三三流", 9, [m 2 2, m 6 6, m 2 6, m 6 2, m 4 4]⟩,
  ⟨"9路-小目流", 9, [m 2 3, m 6 5, m 6 2, m 2 6, m 4 4]⟩,
  ⟨"9路-目外流", 9, [m 2 4, m 6 4, m 4 2, m 4 6]⟩,
  ⟨"9路-高目流", 9, [m 3 4, m 5 4, m 4 3, m 4 5]⟩,
  ⟨"9路-天元激战", 9, [m 4 4, m 3 4, m 4 3, m 4 5, m 5 4]⟩,
  ⟨"9路-对角星", 9, [m 2 6, m 6 2, m 5 5, m 3 3]⟩,
  ⟨"9路-平行布局", 9, [m 2 2, m 2 6, m 6 2, m 6 6]⟩,
  ⟨"13路-星位连占", 13, [m 3 9, m 9 3, m 9 9, m 3 3]⟩,
  ⟨"13路-三三对抗", 13, [m 2 2, m 10 10, m 10 2, m 2 10]⟩,
  ⟨"13路-星小目", 13, [m 3 9, m 9 3, m 10 9, m 2 3]⟩,
  ⟨"三连星 (Sanrensei)", 19, [m 3 15, m 15 3, m 15 15, m 3 3, m 9 15, m 9 3]⟩,
  ⟨"中国流 (Chinese Opening)", 19, [m 3 15, m 15 3, m 2 16, m 3 3, m 9 16]⟩,
  ⟨"小林流 (Kobayashi)", 19, [m 3 15, m 15 3, m 2 16, m 15 15, m 5 16]⟩,
  ⟨"星小目-挂角定式", 19, [m 3 15, m 15 3, m 2 16, m 5 16, m 13 2]⟩,
  ⟨"对角星布局", 19, [m 3 15, m 3 3, m 15 15, m 15 3]⟩]

/-- The 8 square symmetries, computed relative to `size - 1`
(src/unnamed/part_001 lines 111-125). -/
def transform (p : Pos) (size : Nat) (mode : Nat) : Pos :=
  let s : Int := (size : Int) - 1
  match mode with
  | 0 => ⟨p.row, p.col⟩
  | 1 => ⟨p.col, s - p.row⟩
  | 2 => ⟨s - p.row, s - p.col⟩
  | 3 => ⟨s - p.col, p.row⟩
  | 4 => ⟨p.row, s - p.col⟩
  | 5 => ⟨s - p.row, p.col⟩
  | 6 => ⟨p.col, p.row⟩
  | 7 => ⟨s - p.col, s - p.row⟩
  | _ => p

/-- `expandBooks` (src/unnamed/part_001 lines 127-142): 8 variants per base
book. -/
def expandBooks (base : List OpeningBook) : List OpeningBook :=
  base.flatMap fun book =>
    (List.range 8).map fun i =>
      ⟨book.name ++ "-Var" ++ toString i, book.size,
       book.moves.map fun mv => transform mv book.size i⟩

def OPENING_BOOKS : List OpeningBook := expandBooks BASE_BOOKS

/-- Replaying a move sequence through `executeMove` from a given board,
alternating colors and passing the one-ply-earlier board as ko reference. -/
def replayBook (size : Nat) : List Pos → Player → Board → Option Board → Bool
  | [], _, _, _ => true
  | mv :: rest, pl, b, prev =>
      let r := executeMove b size mv pl prev
      r.valid && replayBook size rest pl.opp r.newBoard (some b)

/-- A book replays legally from the empty board, Black first. -/
def replayOk (book : OpeningBook) : Bool :=
  replayBook book.size book.moves Player.Black [] none

/-! ## Claim C9 -/

set_option maxRecDepth 4000 in
/-- C9: every entry of the expanded opening book — each of the 8 symmetry
transforms of each base sequence — replays through `executeMove` from an
empty board of its size, alternating Black and White, with every step
accepted. -/
theorem c9_opening_books : ∀ book ∈ OPENING_BOOKS, replayOk book = true := by
  decide

/-- C9 witness: the theorem applied to the first expanded book entry. -/
theorem c9_witness :
    OPENING_BOOKS.getD 0 ⟨"", 9, []⟩ ∈ OPENING_BOOKS ∧
    replayOk (OPENING_BOOKS.getD 0 ⟨"", 9, []⟩) = true :=
  ⟨by decide, c9_opening_books (OPENING_BOOKS.getD 0 ⟨"", 9, []⟩) (by decide)⟩

/-! ## HeuristicMoveSelector (getAIThinkingMove, src/unnamed/part_000
lines 202-413) -/

/-- `AiLevel { Easy, Medium, Hard }`. -/
inductive AiLevel where
  | Easy : AiLevel
  | Medium : AiLevel
  | Hard : AiLevel
deriving DecidableEq

/-- `ScoredMove { pos, score }`. -/
structure ScoredMove where
  pos : Pos
  score : Int
deriving DecidableEq

/-- `BoardHistory { board, player, lastMove }`. -/
structure BoardHistory where
  board : Board
  player : Player
  lastMove : Option Pos
deriving DecidableEq

/-- `isSamePos` on two present positions. -/
def isSamePos (a b : Pos) : Bool := a.row == b.row && a.col == b.col

/-- `getMoveSequence` (lines 202-206): the non-null `lastMove`s in order. -/
def getMoveSequence (history : List BoardHistory) : List Pos :=
  history.filterMap fun h => h.lastMove

/-- `getAllGroups` (lines 59-73): group info for each stone in map order,
skipping stones already visited. -/
def getAllGroups (board : Board) (size : Nat) : List GroupInfo :=
  (board.foldl
    (fun (acc : List GroupInfo × Finset Pos) e =>
      if e.1 ∈ acc.2 then acc
      else
        let info := getGroupAndLiberties board size e.1
        (acc.1 ++ [info], acc.2 ∪ info.stones))
    ([], ∅)).1

/-- The 5×5 box offsets `for dr in -2..2, for dc in -2..2`. -/
def boxOffsets : List (Int × Int) :=
  (List.range 5).flatMap fun dr : Nat =>
    (List.range 5).map fun dc : Nat => (((dr : Int) - 2), ((dc : Int) - 2))

/-- JS `Set.add` in insertion order. -/
def dedupAppend (acc : List Pos) (p : Pos) : List Pos :=
  if p ∈ acc then acc else acc ++ [p]

/-- The points of interest (lines 254-273): every empty point while fewer
than 20 stones are on the board, otherwise the 5×5 boxes around stones. -/
def poiList (board : Board) (size : Nat) : List Pos :=
  if board.length < 20 then
    (allCells size).filter fun p => !(bhas board p)
  else
    board.foldl
      (fun acc e =>
        boxOffsets.foldl
          (fun acc2 od =>
            let n : Pos := ⟨e.1.row + od.1, e.1.col + od.2⟩
            if inB size n then dedupAppend acc2 n else acc2)
          acc)
      []

/-- The per-candidate score (lines 286-404). -/
def scoreCandidate (board : Board) (size : Nat) (player : Player)
    (currentTerritory : Pos → Option TOwner) (initialGroups : List GroupInfo)
    (moveRes : MoveResult) (p : Pos) : Int :=
  let opponent := player.opp
  let newGroup := getGroupAndLiberties moveRes.newBoard size p
  let newLibs := newGroup.liberties.card
  let score1 : Int :=
    if moveRes.captured then 50000 + (moveRes.capturedStones : Int) * 5000 else 0
  let score2 : Int :=
    if newLibs = 1 then (if ¬ moveRes.captured then score1 - 40000 else score1)
    else if newLibs = 2 then score1 - 2000
    else score1
  let nbrStep : Int × Bool → Pos → Int × Bool := fun st n =>
    if inB size n then
      match bget board n with
      | some c =>
          if c = player then
            match initialGroups.find? (fun g => decide (n ∈ g.stones)) with
            | some g =>
                if g.liberties.card = 1 then
                  if newLibs > 1 then (st.1 + 60000, true) else (st.1 - 10000, st.2)
                else if g.liberties.card = 2 then
                  if newLibs > 2 then (st.1 + 15000, true) else st
                else st
            | none => st
          else
            match initialGroups.find? (fun g => decide (n ∈ g.stones)) with
            | some g =>
                if g.liberties.card = 2 ∧ p ∈ g.liberties then (st.1 + 18000, st.2)
                else st
            | none => st
      | none => st
    else st
  let after3 := (neighborsOf p).foldl nbrStep (score2, false)
  let connectedWeakGroup := after3.2
  let diagFriendlies : Nat :=
    ((([((-1 : Int), (-1 : Int)), (-1, 1), (1, -1), (1, 1)]).filter fun od =>
      let n : Pos := ⟨p.row + od.1, p.col + od.2⟩
      decide (inB size n) && (bget board n == some player))).length
  let score4 : Int :=
    if diagFriendlies ≥ 2 ∧ newLibs ≥ 3 then after3.1 + 3000 else after3.1
  let adjFriendlies : Nat :=
    ((neighborsOf p).filter fun n =>
      decide (inB size n) && (bget board n == some player)).length
  let score5 : Int := if adjFriendlies = 4 then score4 - 30000 else score4
  let score6 : Int :=
    if adjFriendlies = 3 ∧ ¬ connectedWeakGroup then score5 - 1000 else score5
  let score7 : Int := score6 + getStrategicValue p.row p.col size board.length
  if currentTerritory p = some (TOwner.ofPlayer player) then
    let hasInvader := boxOffsets.any fun od =>
      let n : Pos := ⟨p.row + od.1, p.col + od.2⟩
      decide (inB size n) && (bget board n == some opponent)
    if ¬ hasInvader then score7 - 20000 else score7
  else score7

/-- `getAIThinkingMove` (lines 208-413). `rand` models the
`Math.floor(Math.random() * matchingBooks.length)` book draw; it is read
only inside the opening-book branch. -/
def getAIThinkingMove (board : Board) (size : Nat) (level : AiLevel)
    (lastMove : Option Pos) (player : Player) (previousBoard : Option Board)
    (history : List BoardHistory) (rand : Nat) :
    Option Pos × List ScoredMove :=
  let bookResult : Option (Option Pos × List ScoredMove) :=
    if (level = AiLevel.Easy ∨ level = AiLevel.Medium) ∧ history.length < 20 then
      let currentMoves := getMoveSequence history
      let moveIndex := currentMoves.length
      let matchingBooks := OPENING_BOOKS.filter fun book =>
        book.size == size && decide (moveIndex < book.moves.length) &&
          (List.range moveIndex).all fun i =>
            isSamePos (book.moves.getD i ⟨0, 0⟩) (currentMoves.getD i ⟨0, 0⟩)
      if matchingBooks.isEmpty then none
      else
        let randomBook := matchingBooks.getD (rand % matchingBooks.length) ⟨"", 0, []⟩
        let bookMove := randomBook.moves.getD moveIndex ⟨0, 0⟩
        let validCheck := executeMove board size bookMove player previousBoard
        if validCheck.valid then some (some bookMove, [⟨bookMove, 99999⟩])
        else none
    else none
  match bookResult with
  | some r => r
  | none =>
      let currentTerritory := analyzeTerritory board size
      let initialGroups := getAllGroups board size
      let candidateMoves : List ScoredMove :=
        (poiList board size).foldl
          (fun acc k =>
            if bhas board k then acc
            else
              let moveRes := executeMove board size k player previousBoard
              if moveRes.valid then
                acc ++ [⟨k, scoreCandidate board size player currentTerritory
                  initialGroups moveRes k⟩]
              else acc)
          []
      let sorted := candidateMoves.mergeSort fun a b => decide (b.score ≤ a.score)
      let finalMove := sorted.head?.map fun sm => sm.pos
      (finalMove, sorted.take 5)

/-! ## Claim C4 -/

/-- C4 (amended): `executeMove` and the heuristic scoring path are pure
functions of their inputs, so whenever the opening-book branch is bypassed —
at level Hard, or once the history holds 20 or more entries — two runs of
`getAIThinkingMove` on identical inputs return the identical chosen move and
candidate shortlist regardless of the random draw. (In the book branch the
selector reads the random draw, so full determinism fails; see the
counterexample.) -/
theorem c4_selector_deterministic (board : Board) (size : Nat) (level : AiLevel)
    (lastMove : Option Pos) (player : Player) (previousBoard : Option Board)
    (history : List BoardHistory) (r1 r2 : Nat)
    (h : level = AiLevel.Hard ∨ 20 ≤ history.length) :
    getAIThinkingMove board size level lastMove player previousBoard history r1 =
      getAIThinkingMove board size level lastMove player previousBoard history r2 := by
  have hcond : ¬ ((level = AiLevel.Easy ∨ level = AiLevel.Medium) ∧
      history.length < 20) := by
    rcases h with rfl | h
    · rintro ⟨hl | hl, _⟩ <;> simp at hl
    · rintro ⟨_, hlen⟩
      omega
  unfold getAIThinkingMove
  rw [if_neg hcond, if_neg hcond]

/-- C4 witness: the theorem at level Hard on a one-stone board. -/
theorem c4_witness :
    (AiLevel.Hard = AiLevel.Hard ∨
      20 ≤ ([] : List BoardHistory).length) ∧
    getAIThinkingMove [(⟨0, 0⟩, Player.Black)] 9 AiLevel.Hard none Player.White
        none [] 0 =
      getAIThinkingMove [(⟨0, 0⟩, Player.Black)] 9 AiLevel.Hard none Player.White
        none [] 7 :=
  ⟨Or.inl rfl,
    c4_selector_deterministic [(⟨0, 0⟩, Player.Black)] 9 AiLevel.Hard none
      Player.White none [] 0 7 (Or.inl rfl)⟩

/-- C4 counterexample: at the default level (Medium) with empty history, two
runs differing only in the `Math.random()` book draw choose different
moves — the opening-book selection makes `getAIThinkingMove`
non-deterministic on identical board/size/mover/ko/history inputs. -/
theorem c4_counterexample :
    getAIThinkingMove [] 9 AiLevel.Medium none Player.White none [] 0 ≠
      getAIThinkingMove [] 9 AiLevel.Medium none Player.White none [] 8 := by
  decide
